import Mathlib

/-!
Verification of the One Wire Interface (OWI) bus engine of this repository.

The C++ class OWI (src/src/OWI.h) is abstract over three virtual physical
layer primitives: reset, read-bits and write-bits, plus a mutable CRC
accumulator member updated by the concrete read implementations.  We embed
the class shallowly: an implementation of the primitives is a record of
state transformers over an abstract state type, and every concrete member
function of the class is translated into a Lean function over such a record.

A simulated one wire bus with a fixed list of devices is then given as one
concrete implementation, following the wired-AND electrical semantics the
search algorithm is written against, and the search, enumeration, CRC and
error handling claims are settled against these definitions.
-/

namespace OneWire

/-- The physical-layer capability set of the abstract class OWI:
the three virtual primitives (reset, read bits, write bits) together with
access to the protected member m_crc, as state transformers over an
abstract implementation state. -/
structure LL (σ : Type) where
  reset : σ → Bool × σ
  readb : Nat → σ → Nat × σ
  writeb : Nat → Nat → σ → σ
  getCrc : σ → Nat
  setCrc : Nat → σ → σ

variable {σ : Type}

/-- ROM size in bytes (OWI::ROM_MAX). -/
def ROM_MAX : Nat := 8

/-- Bits per byte (CHARBITS). -/
def CHARBITS : Nat := 8

/-- ROM size in bits (OWI::ROMBITS). -/
def ROMBITS : Nat := ROM_MAX * CHARBITS

/-- Search sentinel FIRST (start position of search). -/
def FIRST : Int := -1

/-- Search sentinel ERROR (error during search). -/
def ERROR : Int := -1

/-- Search sentinel LAST (last position, search completed). -/
def LAST : Int := ROMBITS

/-- Inner bit loop of OWI::search: one iteration per bit position j of the
current byte, k iterations remaining.  Mirrors the loop body: shift data,
read a 2-bit pair, branch on the four cases (discrepancy, only ones, only
zeros, no device), write the direction bit, increment pos.  The switch has
no default case, so a value outside 0..3 falls through with only the data
shift and the position increment.  A 0b11 pair aborts the whole search with
ERROR, which we model with the error constructor carrying the state. -/
def searchBits (ll : LL σ) (ci : Nat) :
    Nat → Nat → Nat → Nat → Int → Int → σ → Except σ (Nat × Nat × Int × Int × σ)
  | _, 0, data, pos, last, next, s => .ok (data, pos, last, next, s)
  | j, k+1, data, pos, last, next, s =>
    let data2 := data >>> 1
    let r := ll.readb 2 s
    let v := r.1
    let s2 := r.2
    if v = 0 then
      if (pos : Int) = last then
        searchBits ll ci (j+1) k (data2 ||| 128) (pos+1) (-1) next (ll.writeb 1 1 s2)
      else if last < (pos : Int) then
        searchBits ll ci (j+1) k data2 (pos+1) last (pos : Int) (ll.writeb 0 1 s2)
      else if ci &&& (1 <<< j) ≠ 0 then
        searchBits ll ci (j+1) k (data2 ||| 128) (pos+1) last next (ll.writeb 1 1 s2)
      else
        searchBits ll ci (j+1) k data2 (pos+1) last (pos : Int) (ll.writeb 0 1 s2)
    else if v = 1 then
      searchBits ll ci (j+1) k (data2 ||| 128) (pos+1) last next (ll.writeb 1 1 s2)
    else if v = 2 then
      searchBits ll ci (j+1) k data2 (pos+1) last next (ll.writeb 0 1 s2)
    else if v = 3 then
      .error s2
    else
      searchBits ll ci (j+1) k data2 (pos+1) last next s2

/-- Outer byte loop of OWI::search: one iteration per byte index i of the
code buffer, k iterations remaining.  The byte value code[i] is read once
(it is not written during the inner loop) and the assembled data byte is
stored into the buffer after the inner loop. -/
def searchOuter (ll : LL σ) :
    Nat → Nat → List Nat → Nat → Int → Int → σ → Int × List Nat × σ
  | _, 0, code, _, _, next, s => (next, code, s)
  | i, k+1, code, pos, last, next, s =>
    match searchBits ll (code.getD i 0) 0 8 0 pos last next s with
    | .error s2 => (-1, code, s2)
    | .ok (data, pos2, last2, next2, s2) =>
      searchOuter ll (i+1) k (code.set i data) pos2 last2 next2 s2

/-- OWI::search: walk the 64 bit positions (8 bytes of 8 bits), starting at
position 0 with next = LAST, and return the next discrepancy position
together with the (partially) rewritten code buffer and the final state. -/
def search (ll : LL σ) (code : List Nat) (last : Int) (s : σ) : Int × List Nat × σ :=
  searchOuter ll 0 8 code 0 last 64 s

/-- OWI::search_rom: do { reset; write SEARCH_ROM; search } while the search
is not exhausted and a nonzero family code does not match the first code
byte.  The C++ do-while loop has no intrinsic bound, so the embedding takes
a fuel argument counting loop iterations; none means the fuel ran out with
the loop still running. -/
def search_rom (ll : LL σ) (family : Nat) :
    Nat → List Nat → Int → σ → Option (Int × List Nat × σ)
  | 0, _, _, _ => none
  | fuel+1, code, last, s =>
    match ll.reset s with
    | (false, s2) => some (-1, code, s2)
    | (true, s2) =>
      let s3 := ll.writeb 0xF0 8 s2
      let r := search ll code last s3
      if r.1 ≠ 64 ∧ family ≠ 0 ∧ r.2.1.getD 0 0 ≠ family then
        search_rom ll family fuel r.2.1 r.1 r.2.2
      else
        some r

/-- The byte-read loop of OWI::read(void*, size_t): while (count--) read one
byte into the buffer. -/
def read_bytes (ll : LL σ) : Nat → σ → List Nat × σ
  | 0, s => ([], s)
  | n+1, s =>
    let r := ll.readb 8 s
    let rest := read_bytes ll n r.2
    (r.1 :: rest.1, rest.2)

/-- OWI::read(void* buf, size_t count): clear m_crc, read count bytes into
the buffer, return whether the final accumulator is zero. -/
def read_block (ll : LL σ) (count : Nat) (s : σ) : List Nat × σ × Bool :=
  let s0 := ll.setCrc 0 s
  let r := read_bytes ll count s0
  (r.1, r.2, ll.getCrc r.2 == 0)

/-- The byte-write loop of OWI::write(uint8_t, const void*, size_t). -/
def write_bytes (ll : LL σ) : List Nat → σ → σ
  | [], s => s
  | b :: bs, s => write_bytes ll bs (ll.writeb b 8 s)

/-- OWI::write(uint8_t value, const void* buf, size_t count): write the
command byte, then stream the buffer bytes. -/
def write_block (ll : LL σ) (value : Nat) (buf : List Nat) (s : σ) : σ :=
  write_bytes ll buf (ll.writeb value 8 s)

/-- OWI::read_rom: reset, issue READ_ROM (0x33), read ROM_MAX bytes with CRC
validation.  Returns the success flag, the code buffer (unchanged when reset
fails) and the final state. -/
def read_rom (ll : LL σ) (code : List Nat) (s : σ) : Bool × List Nat × σ :=
  match ll.reset s with
  | (false, s2) => (false, code, s2)
  | (true, s2) =>
    let s3 := ll.writeb 0x33 8 s2
    let r := read_block ll 8 s3
    (r.2.2, r.1, r.2.1)

/-- OWI::match_rom: reset, issue MATCH_ROM (0x55) followed by the 8 code
bytes. -/
def match_rom (ll : LL σ) (code : List Nat) (s : σ) : Bool × σ :=
  match ll.reset s with
  | (false, s2) => (false, s2)
  | (true, s2) => (true, write_block ll 0x55 code s2)

/-- OWI::skip_rom: reset, issue SKIP_ROM (0xCC). -/
def skip_rom (ll : LL σ) (s : σ) : Bool × σ :=
  match ll.reset s with
  | (false, s2) => (false, s2)
  | (true, s2) => (true, ll.writeb 0xCC 8 s2)

/-- OWI::alarm_search: reset, issue ALARM_SEARCH (0xEC), delegate to search. -/
def alarm_search (ll : LL σ) (code : List Nat) (last : Int) (s : σ) : Int × List Nat × σ :=
  match ll.reset s with
  | (false, s2) => (-1, code, s2)
  | (true, s2) => search ll code last (ll.writeb 0xEC 8 s2)

/-- OWI::Device: holds one ROM code buffer (m_rom) next to a reference to
the bus manager.  The accessors touch only the buffer; they are pure and
take no bus state, which is the shallow rendering of the fact that they
perform no bus operation. -/
structure Device where
  m_rom : List Nat

/-- OWI::Device constructor: with a null rom argument the member buffer is
left uninitialized, which we model by an arbitrary junk list standing for
the indeterminate prior memory contents; with a non-null argument, memcpy
copies exactly ROM_MAX bytes. -/
def Device.init (junk : List Nat) (r : Option (List Nat)) : Device :=
  match r with
  | none => ⟨junk⟩
  | some rc => ⟨rc.take ROM_MAX⟩

/-- OWI::Device::rom(const uint8_t*): set the device rom code (memcpy of
ROM_MAX bytes). -/
def Device.setRom (_ : Device) (rc : List Nat) : Device :=
  ⟨rc.take ROM_MAX⟩

/-- OWI::Device::rom(): get the device rom code. -/
def Device.rom (d : Device) : List Nat :=
  d.m_rom

/-! ## The simulated bus

A deterministic one wire bus carrying a fixed list of devices, each
identified by a 64-bit code (a natural number below 2^64; bit p of the code
is bit p of the search path, i.e. bit (p % 8) of code byte (p / 8)).

Reads are wired-AND: during a search, the bus first returns the AND of the
addressed bit over all still-participating devices, then the AND of its
complement; a direction bit written by the master deselects every device
whose bit differs.  After READ_ROM all devices stream their code bytes,
again wired-AND (a silent collision when more than one device is present).
Every read updates the CRC accumulator by the standard Dallas/Maxim CRC-8
step, one bit at a time. -/

/-- Modelled from the spec: the incremental check function applied per bit
by the physical-layer read primitives, whose concrete implementations
(Software/Hardware OWI) are outside this source tree.  The spec requires an
update such that an uncorrupted block, data plus its trailing CRC byte,
drives the accumulator back to 0; this is the standard Dallas/Maxim CRC-8
step, polynomial x^8 + x^5 + x^4 + 1, reflected form 0x8C. -/
def crcBit (crc : Nat) (b : Bool) : Nat :=
  let mix := ((crc + (if b then 1 else 0)) % 2 = 1)
  let c2 := crc / 2
  if mix then c2 ^^^ 0x8C else c2

/-- CRC-8 update for the low n bits of a value, least significant first. -/
def crcUpd : Nat → Nat → Nat → Nat
  | crc, _, 0 => crc
  | crc, v, b+1 => crcUpd (crcBit crc (decide (v % 2 = 1))) (v / 2) b

/-- Protocol mode of the simulated bus. -/
inductive SimMode where
  | idle : SimMode
  | awaitCmd : SimMode
  | searching : List Bool → SimMode
  | reading : Nat → SimMode
deriving DecidableEq

/-- State of the simulated bus: protocol mode plus the CRC accumulator
(the m_crc member of the engine). -/
structure SimState where
  mode : SimMode
  crc : Nat
deriving DecidableEq

/-- Does device d match the list of direction bits chosen so far, starting
at bit position k? -/
def matchFrom (d : Nat) : Nat → List Bool → Bool
  | _, [] => true
  | k, b :: bs => (d.testBit k == b) && matchFrom d (k+1) bs

/-- The devices still participating in a search pass after the direction
bits chosen so far. -/
def part (devs : List Nat) (chosen : List Bool) : List Nat :=
  devs.filter (fun d => matchFrom d 0 chosen)

/-- The 2-bit pair read at the current search position: bit plus
complement, each the wired AND over the participating devices (an empty
set reads as all ones, 0b11). -/
def pairVal (devs : List Nat) (chosen : List Bool) : Nat :=
  let P := part devs chosen
  let p := chosen.length
  (if P.all (fun d => d.testBit p) then 1 else 0) +
    2 * (if P.all (fun d => !(d.testBit p)) then 1 else 0)

/-- Byte i of the wired AND of all device codes (the byte read after
READ_ROM; with a single device this is just its code byte). -/
def byteAnd (devs : List Nat) (i : Nat) : Nat :=
  devs.foldr (fun d acc => Nat.land ((d >>> (8*i)) % 256) acc) 255

/-- An undriven read returns all ones. -/
def allOnes (bits : Nat) : Nat := 2 ^ bits - 1

/-- The simulated bus as an implementation of the physical layer. -/
def simLL (devs : List Nat) : LL SimState where
  reset s := (!devs.isEmpty, ⟨if devs.isEmpty then .idle else .awaitCmd, s.crc⟩)
  readb bits s :=
    let v :=
      match s.mode with
      | .searching chosen => if bits = 2 then pairVal devs chosen else allOnes bits
      | .reading i => if bits = 8 then byteAnd devs i else allOnes bits
      | _ => allOnes bits
    let m2 :=
      match s.mode with
      | .reading i => if bits = 8 then SimMode.reading (i+1) else s.mode
      | m => m
    (v, ⟨m2, crcUpd s.crc v bits⟩)
  writeb v bits s :=
    let m2 :=
      match s.mode, bits with
      | .awaitCmd, 8 =>
        if v = 0xF0 then SimMode.searching []
        else if v = 0x33 then SimMode.reading 0
        else SimMode.idle
      | .searching chosen, 1 => SimMode.searching (chosen ++ [decide (v % 2 = 1)])
      | m, _ => m
    ⟨m2, s.crc⟩
  getCrc s := s.crc
  setCrc v s := ⟨s.mode, v⟩

/-- The chained enumeration protocol of the spec and of the example sketch:
start from cursor FIRST, call search_rom with family 0 (wildcard) feeding
each returned cursor back, collect the code produced by every successful
call, stop at LAST (the final code still counts) or on ERROR.  Fuel bounds
the number of calls. -/
def enumChain (ll : LL σ) : Nat → List Nat → Int → σ → Option (List (List Nat) × Int × σ)
  | 0, _, _, _ => none
  | fuel+1, code, last, s =>
    match search_rom ll 0 1 code last s with
    | none => none
    | some (last2, code2, s2) =>
      if last2 = 64 then some ([code2], 64, s2)
      else if last2 = -1 then some ([], -1, s2)
      else
        match enumChain ll fuel code2 last2 s2 with
        | none => none
        | some (codes, fin, s3) => some (code2 :: codes, fin, s3)

/-- The 8 bytes of a 64-bit code, least significant byte first (code byte i
holds path bits 8i..8i+7, least significant bit first). -/
def natToBytes (d : Nat) : List Nat :=
  [d % 256, d / 2^8 % 256, d / 2^16 % 256, d / 2^24 % 256,
   d / 2^32 % 256, d / 2^40 % 256, d / 2^48 % 256, d / 2^56 % 256]

/-- The 64-bit code denoted by an 8-byte buffer, least significant byte
first. -/
def bytesToNat (bs : List Nat) : Nat :=
  bs.foldr (fun b acc => b + 256 * acc) 0

/-- Iterated byte read: the state after k byte reads. -/
def iterRead (ll : LL σ) : Nat → σ → σ
  | 0, s => s
  | k+1, s => iterRead ll k (ll.readb 8 s).2

/-- The value produced by the k-th byte read (counting from 0) after state
s. -/
def readAt (ll : LL σ) (k : Nat) (s : σ) : Nat :=
  (ll.readb 8 (iterRead ll k s)).1

/-- Observable physical-layer events, used to show that an aborted
transaction issues no command byte and performs no further reads or
writes. -/
inductive Ev where
  | evReset : Ev
  | evRead : Nat → Ev
  | evWrite : Nat → Nat → Ev
  | evSetCrc : Nat → Ev
deriving DecidableEq

/-- Wrap an implementation so that every physical-layer call is also logged
into an event trace. -/
def traced (ll : LL σ) : LL (σ × List Ev) where
  reset s := ((ll.reset s.1).1, ((ll.reset s.1).2, s.2 ++ [.evReset]))
  readb bits s := ((ll.readb bits s.1).1, ((ll.readb bits s.1).2, s.2 ++ [.evRead bits]))
  writeb v bits s := (ll.writeb v bits s.1, s.2 ++ [.evWrite v bits])
  getCrc s := ll.getCrc s.1
  setCrc v s := (ll.setCrc v s.1, s.2 ++ [.evSetCrc v])

/-! ## Pure model of one search pass on the simulated bus

On the simulated bus a search pass is a pure function of the device list,
the previous code and the cursor.  passFrom walks the remaining k bit
positions keeping the list of direction bits chosen so far; it mirrors the
discrepancy resolution of OWI::search bit for bit. -/

/-- Value of a bit list, least significant bit first. -/
def segVal : List Bool → Nat
  | [] => 0
  | b :: bs => (if b then 1 else 0) + 2 * segVal bs

/-- The first p bits of a code, as a path. -/
def bitsPre (c : Nat) (p : Nat) : List Bool :=
  (List.range p).map c.testBit

/-- Pure account of the remaining k bit positions of one search pass on the
simulated bus: chosen is the path so far (its length is the current
position), c the previous code whose buffer the engine consults below the
cursor, last the cursor and next the candidate return position. -/
def passFrom (devs : List Nat) (c : Nat) :
    List Bool → Nat → Int → Int → Option (List Bool × Int × Int)
  | chosen, 0, last, next => some (chosen, last, next)
  | chosen, k+1, last, next =>
    let p := chosen.length
    let v := pairVal devs chosen
    if v = 0 then
      if (p : Int) = last then passFrom devs c (chosen ++ [true]) k (-1) next
      else if last < (p : Int) then passFrom devs c (chosen ++ [false]) k last (p : Int)
      else if c.testBit p then passFrom devs c (chosen ++ [true]) k last next
      else passFrom devs c (chosen ++ [false]) k last (p : Int)
    else if v = 1 then passFrom devs c (chosen ++ [true]) k last next
    else if v = 2 then passFrom devs c (chosen ++ [false]) k last next
    else none

/-- Codes d and c carry the same bits strictly below position p. -/
def agreeBelow (d c : Nat) (p : Nat) : Prop :=
  ∀ q, q < p → d.testBit q = c.testBit q

instance (d c p : Nat) : Decidable (agreeBelow d c p) := by
  unfold agreeBelow; infer_instance

/-- The enumeration order of the search: c comes strictly before d when, at
the shallowest position where their bits differ, c carries 0 and d carries
1 (the walk takes the 0 branch first). -/
def lexLt (c d : Nat) : Prop :=
  ∃ p, p < 64 ∧ agreeBelow c d p ∧ c.testBit p = false ∧ d.testBit p = true

instance (c d : Nat) : Decidable (lexLt c d) := by
  unfold lexLt; infer_instance

/-- The devices that the enumeration still has to visit after code c. -/
def above (devs : List Nat) (c : Nat) : List Nat :=
  devs.filter (fun d => decide (lexLt c d))

/-- Is position p of path ch an unresolved discrepancy, i.e. the path
carries 0 there while some device matching the path below p carries 1? -/
def zdb (devs : List Nat) (ch : List Bool) (p : Nat) : Bool :=
  !(ch.getD p true) && (part devs (ch.take p)).any (fun d => d.testBit p)

/-- The candidate cursor produced by the positions a ≤ p < b of a pass
along path ch, starting from candidate n0: each unresolved discrepancy
position taken on the 0 branch overwrites the candidate in turn, so the
result is the deepest one, or n0 when there is none. -/
def nextOut (devs : List Nat) (ch : List Bool) (a b : Nat) (n0 : Int) : Int :=
  ((List.range' a (b - a)).filter (zdb devs ch)).foldl
    (fun (_ : Int) (p : Nat) => (p : Int)) n0

/-- The cursor returned by a full non-faulting pass that produced code c:
the deepest unresolved discrepancy position along the path of c, or LAST
(64) when none remains. -/
def nextSpec (devs : List Nat) (c : Nat) : Int :=
  nextOut devs (bitsPre c 64) 0 64 64

/-- Byte t of a 64-bit path (8 bits, least significant first). -/
def pathByte (ch : List Bool) (t : Nat) : Nat :=
  segVal ((ch.drop (8*t)).take 8)

/-- Byte i of a code. -/
def cByte (c i : Nat) : Nat :=
  c / 2 ^ (8 * i) % 256

/-- The 8 bytes of a 64-bit path. -/
def pathBytes (ch : List Bool) : List Nat :=
  (List.range 8).map (pathByte ch)

/-- A concrete adversarial implementation used to exercise the fault
handling of search_rom: reset always reports presence, the first bit-pair
read returns 0b11 (no device) and every later read returns 0b01 (all ones).
The state counts the reads performed. -/
def cexLL : LL Nat where
  reset s := (true, s)
  readb _ s := (if s = 0 then 3 else 1, s + 1)
  writeb _ _ s := s
  getCrc _ := 0
  setCrc _ s := s

/-- A concrete implementation whose reset always fails. -/
def deadLL : LL Nat where
  reset s := (false, s + 1)
  readb _ s := (0, s)
  writeb _ _ s := s
  getCrc _ := 0
  setCrc _ s := s

/-! ## Basic lemmas -/

lemma reset_false_eq {ll : LL σ} {s : σ} (h : (ll.reset s).1 = false) :
    ll.reset s = (false, (ll.reset s).2) := by
  rcases hr : ll.reset s with ⟨a, b⟩
  rw [hr] at h
  simp at h
  simp [h]

lemma traced_reset_false {ll : LL σ} {s : σ} (t : List Ev)
    (h : (ll.reset s).1 = false) :
    (traced ll).reset (s, t) = (false, ((ll.reset s).2, t ++ [Ev.evReset])) := by
  simp [traced, h]

/-- The byte-read loop reads exactly count bytes, in order, and ends in the
count-fold iterated read state. -/
lemma read_bytes_spec (ll : LL σ) :
    ∀ (n : Nat) (s : σ),
    (read_bytes ll n s).1.length = n ∧
    (read_bytes ll n s).2 = iterRead ll n s ∧
    ∀ k, k < n → (read_bytes ll n s).1.getD k 0 = readAt ll k s := by
  intro n
  induction n with
  | zero => intro s; simp [read_bytes, iterRead]
  | succ n ih =>
    intro s
    obtain ⟨h1, h2, h3⟩ := ih (ll.readb 8 s).2
    refine ⟨by simp [read_bytes, h1], by simp [read_bytes, h2, iterRead], ?_⟩
    intro k hk
    cases k with
    | zero => simp [read_bytes, readAt, iterRead]
    | succ k =>
      have : readAt ll (k+1) s = readAt ll k (ll.readb 8 s).2 := by
        simp [readAt, iterRead]
      simp only [read_bytes, List.getD_cons_succ, this]
      exact h3 k (by omega)

/-! ## C10: Device rom accessors -/

/-- C10: after Device::rom(code), or construction with a non-null rom
argument, the getter returns exactly the 8 given bytes; both accessors are
pure functions of the device value and perform no bus operation (they do
not even receive a bus state); construction with the default null rom
argument leaves the member buffer at its indeterminate prior contents. -/
theorem claim_C10 (junk rc : List Nat) (d : Device) (h : rc.length = ROM_MAX) :
    (Device.init junk (some rc)).rom = rc ∧
    (d.setRom rc).rom = rc ∧
    (Device.init junk none).rom = junk := by
  refine ⟨?_, ?_, rfl⟩ <;>
    simp [Device.init, Device.setRom, Device.rom, ← h, List.take_length]

theorem claim_C10_witness :
    ([10, 20, 30, 40, 50, 60, 70, 80] : List Nat).length = ROM_MAX ∧
    ((Device.init [9] (some [10, 20, 30, 40, 50, 60, 70, 80])).rom =
        [10, 20, 30, 40, 50, 60, 70, 80] ∧
      ((⟨[]⟩ : Device).setRom [10, 20, 30, 40, 50, 60, 70, 80]).rom =
        [10, 20, 30, 40, 50, 60, 70, 80] ∧
      (Device.init [9] none).rom = [9]) :=
  ⟨by decide, claim_C10 [9] [10, 20, 30, 40, 50, 60, 70, 80] ⟨[]⟩ (by decide)⟩

/-! ## C6: buffered read with CRC check -/

/-- C6: read(buffer, count) first clears the CRC accumulator, then performs
exactly count successive byte reads, stores them in the buffer in ascending
order, and returns true exactly when the accumulator is zero after the
final read; a nonzero accumulator surfaces only as the false return value
(the final state is exactly the count-fold read state: nothing is retried). -/
theorem claim_C6 (ll : LL σ) (count : Nat) (s : σ) :
    (read_block ll count s).1.length = count ∧
    (∀ k, k < count →
      (read_block ll count s).1.getD k 0 = readAt ll k (ll.setCrc 0 s)) ∧
    (read_block ll count s).2.1 = iterRead ll count (ll.setCrc 0 s) ∧
    ((read_block ll count s).2.2 = true ↔
      ll.getCrc (iterRead ll count (ll.setCrc 0 s)) = 0) := by
  obtain ⟨h1, h2, h3⟩ := read_bytes_spec ll count (ll.setCrc 0 s)
  refine ⟨by simpa [read_block] using h1, ?_, by simpa [read_block] using h2, ?_⟩
  · intro k hk
    simpa [read_block] using h3 k hk
  · simp [read_block, h2]

theorem claim_C6_witness :
    (read_block cexLL 2 5).1.length = 2 ∧
    (∀ k, k < 2 →
      (read_block cexLL 2 5).1.getD k 0 = readAt cexLL k (cexLL.setCrc 0 5)) ∧
    (read_block cexLL 2 5).2.1 = iterRead cexLL 2 (cexLL.setCrc 0 5) ∧
    ((read_block cexLL 2 5).2.2 = true ↔
      cexLL.getCrc (iterRead cexLL 2 (cexLL.setCrc 0 5)) = 0) :=
  claim_C6 cexLL 2 5

/-! ## C5: a failed reset aborts every operation -/

/-- C5: whenever reset() reports no presence, every engine operation aborts
immediately: search_rom and alarm_search return ERROR and read_rom,
match_rom and skip_rom return false, the code buffer is left untouched, and
the event trace records the single failed reset: no command byte is issued
and no read or write is performed. -/
theorem claim_C5 (ll : LL σ) (s : σ) (t : List Ev) (family : Nat)
    (code : List Nat) (last : Int) (fuel : Nat)
    (h : (ll.reset s).1 = false) :
    search_rom (traced ll) family (fuel+1) code last (s, t) =
      some (ERROR, code, ((ll.reset s).2, t ++ [Ev.evReset])) ∧
    alarm_search (traced ll) code last (s, t) =
      (ERROR, code, ((ll.reset s).2, t ++ [Ev.evReset])) ∧
    read_rom (traced ll) code (s, t) =
      (false, code, ((ll.reset s).2, t ++ [Ev.evReset])) ∧
    match_rom (traced ll) code (s, t) =
      (false, ((ll.reset s).2, t ++ [Ev.evReset])) ∧
    skip_rom (traced ll) (s, t) =
      (false, ((ll.reset s).2, t ++ [Ev.evReset])) := by
  have hr := traced_reset_false t h
  refine ⟨?_, ?_, ?_, ?_, ?_⟩ <;>
    simp [search_rom, alarm_search, read_rom, match_rom, skip_rom, hr, ERROR]

theorem claim_C5_witness :
    (deadLL.reset 0).1 = false ∧
    (search_rom (traced deadLL) 0x28 1 [1, 2, 3, 4, 5, 6, 7, 8] (-1) (0, []) =
        some (ERROR, [1, 2, 3, 4, 5, 6, 7, 8], (1, [Ev.evReset])) ∧
      alarm_search (traced deadLL) [1, 2, 3, 4, 5, 6, 7, 8] (-1) (0, []) =
        (ERROR, [1, 2, 3, 4, 5, 6, 7, 8], (1, [Ev.evReset])) ∧
      read_rom (traced deadLL) [1, 2, 3, 4, 5, 6, 7, 8] (0, []) =
        (false, [1, 2, 3, 4, 5, 6, 7, 8], (1, [Ev.evReset])) ∧
      match_rom (traced deadLL) [1, 2, 3, 4, 5, 6, 7, 8] (0, []) =
        (false, (1, [Ev.evReset])) ∧
      skip_rom (traced deadLL) (0, []) = (false, (1, [Ev.evReset]))) :=
  ⟨rfl, claim_C5 deadLL 0 [] 0x28 [1, 2, 3, 4, 5, 6, 7, 8] (-1) 0 rfl⟩

/-! ## C8: sentinels and result range -/

/-- A successful inner bit loop advances the position by its step count and
either keeps the incoming candidate cursor or records one of the positions
it visited. -/
lemma searchBits_ok_next (ll : LL σ) (ci : Nat) :
    ∀ (k j data pos : Nat) (last next : Int) (s : σ)
      (d2 p2 : Nat) (l2 n2 : Int) (s2 : σ),
    searchBits ll ci j k data pos last next s = .ok (d2, p2, l2, n2, s2) →
    p2 = pos + k ∧
      (n2 = next ∨ ∃ q : Nat, pos ≤ q ∧ q < pos + k ∧ n2 = (q : Int)) := by
  intro k
  induction k with
  | zero =>
    intro j data pos last next s d2 p2 l2 n2 s2 h
    simp [searchBits] at h
    obtain ⟨-, h2, -, h4, -⟩ := h
    exact ⟨by omega, Or.inl h4.symm⟩
  | succ k ih =>
    intro j data pos last next s d2 p2 l2 n2 s2 h
    simp only [searchBits] at h
    split_ifs at h
    all_goals
      first
      | exact Except.noConfusion h
      | (obtain ⟨hp, hn⟩ := ih _ _ _ _ _ _ _ _ _ _ _ h
         refine ⟨by omega, ?_⟩
         rcases hn with hn | ⟨q, hq1, hq2, hq3⟩
         · first
           | exact Or.inl hn
           | exact Or.inr ⟨pos, by omega, by omega, hn⟩
         · exact Or.inr ⟨q, by omega, by omega, hq3⟩)

/-- The outer byte loop returns ERROR, the incoming candidate, or one of
the visited positions. -/
lemma searchOuter_next (ll : LL σ) :
    ∀ (k i : Nat) (code : List Nat) (pos : Nat) (last next : Int) (s : σ),
    (searchOuter ll i k code pos last next s).1 = -1 ∨
      (searchOuter ll i k code pos last next s).1 = next ∨
      ∃ q : Nat, pos ≤ q ∧ q < pos + 8*k ∧
        (searchOuter ll i k code pos last next s).1 = (q : Int) := by
  intro k
  induction k with
  | zero => intro i code pos last next s; simp [searchOuter]
  | succ k ih =>
    intro i code pos last next s
    rw [searchOuter]
    rcases hb : searchBits ll (code.getD i 0) 0 8 0 pos last next s with s2 | ⟨data, pos2, last2, next2, s2⟩
    · simp
    · obtain ⟨hp, hn⟩ := searchBits_ok_next ll _ _ _ _ _ _ _ _ _ _ _ _ _ hb
      simp only
      rcases ih (i+1) (code.set i data) pos2 last2 next2 s2 with h | h | ⟨q, hq1, hq2, hq3⟩
      · exact Or.inl h
      · rcases hn with hn | ⟨q, hq1, hq2, hq3⟩
        · exact Or.inr (Or.inl (h.trans hn))
        · exact Or.inr (Or.inr ⟨q, hq1, by omega, h.trans hq3⟩)
      · exact Or.inr (Or.inr ⟨q, by omega, by omega, hq3⟩)

/-- OWI::search always returns a value in [-1, 64]. -/
lemma search_range (ll : LL σ) (code : List Nat) (last : Int) (s : σ) :
    -1 ≤ (search ll code last s).1 ∧ (search ll code last s).1 ≤ 64 := by
  rw [search]
  rcases searchOuter_next ll 8 0 code 0 last 64 s with h | h | ⟨q, hq1, hq2, h⟩ <;>
    rw [h] <;> constructor <;> omega

/-- OWI::search_rom, whenever it returns, returns a value in [-1, 64]. -/
lemma search_rom_range (ll : LL σ) (family : Nat) :
    ∀ (fuel : Nat) (code : List Nat) (last : Int) (s : σ) r,
    search_rom ll family fuel code last s = some r →
    -1 ≤ r.1 ∧ r.1 ≤ 64 := by
  intro fuel
  induction fuel with
  | zero => intro code last s r h; simp [search_rom] at h
  | succ fuel ih =>
    intro code last s r h
    rw [search_rom] at h
    rcases hr : ll.reset s with ⟨b, s2⟩
    rw [hr] at h
    cases b
    · cases h
      constructor <;> norm_num
    · simp only at h
      split_ifs at h with hc
      · exact ih _ _ _ _ h
      · have := search_range ll code last (ll.writeb 0xF0 8 s2)
        cases h
        exact this

/-- C8: the sentinel constants satisfy FIRST = -1, ERROR = -1 and
LAST = 64 = ROMBITS (the bit width of a ROM code), and every value returned
by search, search_rom or alarm_search lies in the interval [-1, 64]. -/
theorem claim_C8 :
    FIRST = -1 ∧ ERROR = -1 ∧ LAST = 64 ∧ LAST = (ROMBITS : Int) ∧
    (∀ (σ : Type) (ll : LL σ) (code : List Nat) (last : Int) (s : σ),
      -1 ≤ (search ll code last s).1 ∧ (search ll code last s).1 ≤ 64) ∧
    (∀ (σ : Type) (ll : LL σ) (family fuel : Nat) (code : List Nat)
       (last : Int) (s : σ) r,
      search_rom ll family fuel code last s = some r → -1 ≤ r.1 ∧ r.1 ≤ 64) ∧
    (∀ (σ : Type) (ll : LL σ) (code : List Nat) (last : Int) (s : σ),
      -1 ≤ (alarm_search ll code last s).1 ∧ (alarm_search ll code last s).1 ≤ 64) := by
  refine ⟨rfl, rfl, rfl, rfl, fun σ ll code last s => search_range ll code last s,
    fun σ ll family fuel code last s r h => search_rom_range ll family fuel code last s r h,
    fun σ ll code last s => ?_⟩
  rw [alarm_search]
  rcases hr : ll.reset s with ⟨b, s2⟩
  cases b
  · simp
  · simp only
    exact search_range ll code last (ll.writeb 0xEC 8 s2)

theorem claim_C8_witness :
    search_rom cexLL 0 1 [0, 0, 0, 0, 0, 0, 0, 0] (-1) 0 =
      some (-1, [0, 0, 0, 0, 0, 0, 0, 0], 1) ∧
    -1 ≤ (-1 : Int) ∧ (-1 : Int) ≤ 64 :=
  ⟨by decide,
    claim_C8.2.2.2.2.2.1 Nat cexLL 0 1 [0, 0, 0, 0, 0, 0, 0, 0] (-1) 0
      (-1, [0, 0, 0, 0, 0, 0, 0, 0], 1) (by decide)⟩

/-! ## C4: fault propagation through search_rom -/

lemma reset_true_eq {ll : LL σ} {s : σ} (h : (ll.reset s).1 = true) :
    ll.reset s = (true, (ll.reset s).2) := by
  rcases hr : ll.reset s with ⟨a, b⟩
  rw [hr] at h
  simp at h
  simp [h]

/-- C4 as frozen is false: with family 0xFF, an initial code buffer whose
first byte is not 0xFF, and a bus that faults with a 0b11 pair on the first
delegated search pass but answers cleanly afterwards, search_rom does not
return ERROR: the do-while condition treats the ERROR cursor like FIRST and
retries, and the call returns LAST.  The first conjunct shows the first
delegated pass (the state is unchanged by reset and command write on this
implementation) does report a bus fault. -/
theorem claim_C4_counterexample :
    (search cexLL [0, 0, 0, 0, 0, 0, 0, 0] (-1) 0).1 = ERROR ∧
    search_rom cexLL 0xFF 2 [0, 0, 0, 0, 0, 0, 0, 0] (-1) 0 =
      some (64, [255, 255, 255, 255, 255, 255, 255, 255], 65) ∧
    (64 : Int) ≠ ERROR := by
  refine ⟨by decide, by decide, by decide⟩

/-- C4 amended: search_rom returns only values in [-1, 64]; when the
delegated search pass reports a bus fault it returns ERROR provided the
family argument is 0 or the code buffer left by the faulting pass already
carries the requested family byte; otherwise the do-while loop retries the
whole search with the ERROR cursor (= FIRST) as the new starting cursor. -/
theorem claim_C4 (ll : LL σ) (s : σ) (code : List Nat) (last : Int)
    (family fuel : Nat) (hr : (ll.reset s).1 = true)
    (hs : (search ll code last (ll.writeb 0xF0 8 (ll.reset s).2)).1 = ERROR) :
    (∀ r, search_rom ll family (fuel+1) code last s = some r →
      -1 ≤ r.1 ∧ r.1 ≤ 64) ∧
    ((family = 0 ∨
        (search ll code last (ll.writeb 0xF0 8 (ll.reset s).2)).2.1.getD 0 0 = family) →
      search_rom ll family (fuel+1) code last s =
        some (ERROR, (search ll code last (ll.writeb 0xF0 8 (ll.reset s).2)).2.1,
          (search ll code last (ll.writeb 0xF0 8 (ll.reset s).2)).2.2)) ∧
    (family ≠ 0 →
      (search ll code last (ll.writeb 0xF0 8 (ll.reset s).2)).2.1.getD 0 0 ≠ family →
      search_rom ll family (fuel+1) code last s =
        search_rom ll family fuel
          (search ll code last (ll.writeb 0xF0 8 (ll.reset s).2)).2.1 ERROR
          (search ll code last (ll.writeb 0xF0 8 (ll.reset s).2)).2.2) := by
  have hre := reset_true_eq hr
  refine ⟨fun r h => search_rom_range ll family (fuel+1) code last s r h, ?_, ?_⟩
  · intro hfam
    rw [search_rom, hre]
    simp only
    rw [if_neg]
    · rcases hp : search ll code last (ll.writeb 0xF0 8 (ll.reset s).2) with ⟨a, b, c⟩
      rw [hp] at hs
      simp at hs
      simp [hs, ERROR]
    · rw [ERROR] at hs
      rcases hfam with hfam | hfam
      · simp [hfam]
      · intro hcon
        exact hcon.2.2 hfam
  · intro h1 h2
    rw [search_rom, hre]
    simp only
    rw [if_pos]
    · rw [ERROR] at hs ⊢
      rw [hs]
    · rw [ERROR] at hs
      refine ⟨by rw [hs]; decide, h1, h2⟩

theorem claim_C4_witness :
    ((cexLL.reset 0).1 = true ∧
      (search cexLL [0, 0, 0, 0, 0, 0, 0, 0] (-1)
        (cexLL.writeb 0xF0 8 (cexLL.reset 0).2)).1 = ERROR) ∧
    ((0xFF : Nat) ≠ 0 →
      (search cexLL [0, 0, 0, 0, 0, 0, 0, 0] (-1)
        (cexLL.writeb 0xF0 8 (cexLL.reset 0).2)).2.1.getD 0 0 ≠ 0xFF →
      search_rom cexLL 0xFF 2 [0, 0, 0, 0, 0, 0, 0, 0] (-1) 0 =
        search_rom cexLL 0xFF 1
          (search cexLL [0, 0, 0, 0, 0, 0, 0, 0] (-1)
            (cexLL.writeb 0xF0 8 (cexLL.reset 0).2)).2.1 ERROR
          (search cexLL [0, 0, 0, 0, 0, 0, 0, 0] (-1)
            (cexLL.writeb 0xF0 8 (cexLL.reset 0).2)).2.2) :=
  ⟨⟨by decide, by decide⟩,
    (claim_C4 cexLL 0 [0, 0, 0, 0, 0, 0, 0, 0] (-1) 0xFF 1 (by decide) (by decide)).2.2⟩

/-! ## C2 and C3: discrepancy resolution inside one pass -/

lemma land_one_shiftLeft (ci j : Nat) :
    (ci &&& (1 <<< j) ≠ 0) ↔ ci.testBit j = true := by
  rw [Nat.one_shiftLeft, Nat.and_two_pow]
  rcases h : ci.testBit j <;> simp [h]

/-- C2 as frozen is false: on the simulated bus {0, 2, 3}, the first pass
(previous code 0, cursor FIRST) takes the 0 branch at the unresolved
discrepancy positions 0 and 1 along the path of code 0, and returns 1, the
deepest of them, not the shallowest 0. -/
theorem claim_C2_counterexample :
    (search (simLL [0, 2, 3]) (natToBytes 0) (-1) ⟨.searching [], 0⟩).1 = 1 ∧
    zdb [0, 2, 3] (bitsPre 0 64) 0 = true ∧
    zdb [0, 2, 3] (bitsPre 0 64) 1 = true ∧
    (1 : Int) ≠ 0 := by
  refine ⟨by decide, by decide, by decide, by decide⟩

/-- C3 as frozen is false: at a discrepancy strictly shallower than the
cursor whose recorded buffer bit is 0, the code overwrites the candidate
cursor with that position.  On the simulated bus {0, 2, 3}, the pass with
previous code 0 and cursor 1 meets such a discrepancy at position 0 (the
buffer bit of code 0 there is 0) and returns 0; under the frozen claim no
position of this pass could have touched the candidate (position 1 is the
cursor itself, taken on the 1 branch, and no deeper position of the
resulting path of code 2 is a discrepancy), so the pass would have
returned the initial candidate LAST = 64. -/
theorem claim_C3_counterexample :
    (search (simLL [0, 2, 3]) (natToBytes 0) 1 ⟨.searching [], 0⟩).1 = 0 ∧
    pairVal [0, 2, 3] [] = 0 ∧ ((0 : Int) < 1 ∧ Nat.testBit 0 0 = false) ∧
    (∀ p, 2 ≤ p → p < 64 → pairVal [0, 2, 3] (bitsPre 2 p) ≠ 0) ∧
    (0 : Int) ≠ 64 := by
  refine ⟨by decide, by decide, ⟨by decide, by decide⟩, by decide, by decide⟩

/-- C3 amended: at a discrepancy strictly shallower than the cursor, the
branch written and stored is the bit the code buffer already records at
that position, and the candidate cursor is overwritten with the position
when that bit is 0, and left unchanged when it is 1. -/
theorem claim_C3 (devs : List Nat) (chosen : List Bool) (ci j k data pos : Nat)
    (last next : Int) (crc : Nat)
    (hv : pairVal devs chosen = 0) (hlt : (pos : Int) < last) :
    searchBits (simLL devs) ci j (k+1) data pos last next ⟨.searching chosen, crc⟩ =
      (if ci.testBit j then
        searchBits (simLL devs) ci (j+1) k ((data >>> 1) ||| 128) (pos+1) last next
          ⟨.searching (chosen ++ [true]), crcUpd crc 0 2⟩
      else
        searchBits (simLL devs) ci (j+1) k (data >>> 1) (pos+1) last (pos : Int)
          ⟨.searching (chosen ++ [false]), crcUpd crc 0 2⟩) := by
  have hrd : (simLL devs).readb 2 ⟨.searching chosen, crc⟩ =
      (0, ⟨.searching chosen, crcUpd crc 0 2⟩) := by
    simp [simLL, hv]
  have h1 : ¬((pos : Int) = last) := by omega
  have h2 : ¬(last < (pos : Int)) := by omega
  rcases hb : ci.testBit j with hfalse | htrue
  · have hci : ¬(ci &&& 1 <<< j ≠ 0) := by rw [land_one_shiftLeft, hb]; simp
    rw [searchBits]
    simp only [hrd, hb]
    simp [h1, h2, hci, simLL]
  · have hci : ci &&& 1 <<< j ≠ 0 := by rw [land_one_shiftLeft]; exact hb
    rw [searchBits]
    simp only [hrd, hb]
    simp [h1, h2, hci, simLL]

theorem claim_C3_witness :
    (pairVal [0, 2, 3] [] = 0 ∧ ((0 : Int) < 1)) ∧
    searchBits (simLL [0, 2, 3]) 0 0 8 0 0 1 64 ⟨.searching [], 0⟩ =
      (if Nat.testBit 0 0 then
        searchBits (simLL [0, 2, 3]) 0 1 7 ((0 >>> 1) ||| 128) 1 1 64
          ⟨.searching ([] ++ [true]), crcUpd 0 0 2⟩
      else
        searchBits (simLL [0, 2, 3]) 0 1 7 (0 >>> 1) 1 1 ((0 : Nat) : Int)
          ⟨.searching ([] ++ [false]), crcUpd 0 0 2⟩) :=
  ⟨⟨by decide, by decide⟩,
    claim_C3 [0, 2, 3] [] 0 0 7 0 0 1 64 0 (by decide) (by decide)⟩

/-! ## Bit, path and byte lemmas -/

lemma getD_append_lt (l1 l2 : List Bool) (n : Nat) (dv : Bool) (h : n < l1.length) :
    (l1 ++ l2).getD n dv = l1.getD n dv := by
  simp [List.getD_eq_getElem?_getD, List.getElem?_append, h]

lemma getD_append_ge (l1 l2 : List Bool) (n : Nat) (dv : Bool) (h : l1.length ≤ n) :
    (l1 ++ l2).getD n dv = l2.getD (n - l1.length) dv := by
  simp [List.getD_eq_getElem?_getD, List.getElem?_append, Nat.not_lt.mpr h]

lemma getD_append_len (l1 : List Bool) (b : Bool) (dv : Bool) :
    (l1 ++ [b]).getD l1.length dv = b := by
  rw [getD_append_ge l1 [b] l1.length dv le_rfl]
  simp

lemma getD_take_lt (l : List Bool) (n m : Nat) (h : m < n) :
    (l.take n).getD m false = l.getD m false := by
  simp [List.getD_eq_getElem?_getD, List.getElem?_take_of_lt (l := l) h]

lemma segVal_lt : ∀ bs : List Bool, segVal bs < 2 ^ bs.length
  | [] => by simp [segVal]
  | b :: bs => by
    have := segVal_lt bs
    rcases b <;> simp [segVal, pow_succ] <;> omega

lemma segVal_append : ∀ l1 l2 : List Bool,
    segVal (l1 ++ l2) = segVal l1 + 2 ^ l1.length * segVal l2
  | [], l2 => by simp [segVal]
  | b :: l1, l2 => by
    have ih := segVal_append l1 l2
    rcases b <;>
      (simp only [List.cons_append, List.append_eq, segVal, List.length_cons,
        pow_succ, if_true, if_false]
       rw [ih]
       ring)

lemma segVal_testBit : ∀ (bs : List Bool) (q : Nat),
    (segVal bs).testBit q = bs.getD q false
  | [], q => by simp [segVal]
  | b :: bs, 0 => by
    rcases b <;> simp [segVal, Nat.testBit_zero] <;> omega
  | b :: bs, q+1 => by
    have ih := segVal_testBit bs q
    have hdiv : segVal (b :: bs) / 2 = segVal bs := by
      rcases b <;> simp [segVal] <;> omega
    rw [Nat.testBit_succ, hdiv, ih]
    simp

lemma matchFrom_append (d : Nat) : ∀ (l1 l2 : List Bool) (k : Nat),
    matchFrom d k (l1 ++ l2) = (matchFrom d k l1 && matchFrom d (k + l1.length) l2)
  | [], l2, k => by simp [matchFrom]
  | b :: l1, l2, k => by
    have harg : k + 1 + l1.length = k + (l1.length + 1) := by omega
    simp only [List.cons_append, List.append_eq, matchFrom, List.length_cons,
      Bool.and_assoc]
    rw [matchFrom_append d l1 l2 (k+1), harg]

lemma matchFrom_iff (d : Nat) : ∀ (bs : List Bool) (k : Nat),
    matchFrom d k bs = true ↔ ∀ t, t < bs.length → d.testBit (k + t) = bs.getD t false
  | [], k => by simp [matchFrom]
  | b :: bs, k => by
    rw [matchFrom, Bool.and_eq_true, beq_iff_eq, matchFrom_iff d bs (k+1)]
    constructor
    · rintro ⟨h0, h1⟩ t ht
      cases t with
      | zero => simpa using h0
      | succ t =>
        have e : k + (t+1) = (k+1) + t := by omega
        rw [List.getD_cons_succ, e]
        exact h1 t (by simpa using ht)
    · intro h
      refine ⟨by simpa using h 0 (by simp), fun t ht => ?_⟩
      have e : k + (t+1) = (k+1) + t := by omega
      have h2 := h (t+1) (by simpa using ht)
      rw [List.getD_cons_succ, e] at h2
      exact h2

lemma bitsPre_length (c p : Nat) : (bitsPre c p).length = p := by
  simp [bitsPre]

lemma bitsPre_succ (c p : Nat) : bitsPre c (p+1) = bitsPre c p ++ [c.testBit p] := by
  simp [bitsPre, List.range_succ]

lemma bitsPre_getD (c : Nat) : ∀ p q, q < p → ∀ dv, (bitsPre c p).getD q dv = c.testBit q := by
  intro p
  induction p with
  | zero => intro q hq; omega
  | succ p ih =>
    intro q hq dv
    rw [bitsPre_succ]
    rcases Nat.lt_or_ge q p with h | h
    · rw [getD_append_lt _ _ _ _ (by rw [bitsPre_length]; omega), ih q h dv]
    · have hqp : q = p := by omega
      subst hqp
      have := getD_append_len (bitsPre c q) (c.testBit q) dv
      rwa [bitsPre_length] at this

lemma bitsPre_take (c : Nat) (p m : Nat) (h : m ≤ p) :
    (bitsPre c p).take m = bitsPre c m := by
  simp [bitsPre, ← List.map_take, List.take_range, Nat.min_eq_left h]

lemma matchFrom_bitsPre (d c p : Nat) :
    matchFrom d 0 (bitsPre c p) = true ↔ agreeBelow d c p := by
  rw [matchFrom_iff]
  unfold agreeBelow
  rw [bitsPre_length]
  constructor
  · intro h q hq
    rw [← bitsPre_getD c p q hq]
    simpa using h q hq
  · intro h t ht
    rw [bitsPre_getD c p t ht]
    simpa using h t ht

lemma segVal_bitsPre (c p : Nat) (h : c < 2 ^ p) : segVal (bitsPre c p) = c := by
  apply Nat.eq_of_testBit_eq
  intro q
  rw [segVal_testBit]
  rcases Nat.lt_or_ge q p with hq | hq
  · exact bitsPre_getD c p q hq false
  · have h1 : (bitsPre c p).getD q false = false := by
      apply List.getD_eq_default
      rw [bitsPre_length]; omega
    rw [h1]
    exact (Nat.testBit_lt_two_pow (lt_of_lt_of_le h (Nat.pow_le_pow_right (by norm_num) hq))).symm

lemma matchFrom_full (d : Nat) (ch : List Bool) (hlen : ch.length = 64)
    (hd : d < 2 ^ 64) : matchFrom d 0 ch = true ↔ d = segVal ch := by
  rw [matchFrom_iff]
  constructor
  · intro h
    apply Nat.eq_of_testBit_eq
    intro q
    rw [segVal_testBit]
    rcases Nat.lt_or_ge q 64 with hq | hq
    · simpa using h q (by omega)
    · have h1 : ch.getD q false = false := by
        apply List.getD_eq_default; omega
      rw [h1]
      exact Nat.testBit_lt_two_pow (lt_of_lt_of_le hd (Nat.pow_le_pow_right (by norm_num) hq))
  · intro h t ht
    rw [h, segVal_testBit]
    simp

lemma cByte_lt (c i : Nat) : cByte c i < 256 := by
  simp [cByte]
  omega

lemma cByte_testBit (c i j : Nat) (hj : j < 8) :
    (cByte c i).testBit j = c.testBit (8 * i + j) := by
  have h1 : (256 : Nat) = 2 ^ 8 := by norm_num
  have h2 : c / 2 ^ (8 * i) = c >>> (8 * i) := (Nat.shiftRight_eq_div_pow c (8*i)).symm
  rw [cByte, h1, h2, Nat.testBit_mod_two_pow, Nat.testBit_shiftRight]
  simp [hj]

lemma natToBytes_length (c : Nat) : (natToBytes c).length = 8 := by
  simp [natToBytes]

lemma natToBytes_getD (c i : Nat) (h : i < 8) :
    (natToBytes c).getD i 0 = cByte c i := by
  interval_cases i <;> simp [natToBytes, cByte] <;> norm_num

lemma natToBytes_getD_lt (c i : Nat) (h : i < 8) :
    (natToBytes c).getD i 0 < 256 := by
  rw [natToBytes_getD c i h]; exact cByte_lt c i

lemma pathByte_eq_cByte (ch : List Bool) (t : Nat) (hlen : ch.length = 64)
    (ht : t < 8) : pathByte ch t = cByte (segVal ch) t := by
  apply Nat.eq_of_testBit_eq
  intro q
  rcases Nat.lt_or_ge q 8 with hq | hq
  · rw [cByte_testBit _ _ _ hq, segVal_testBit, pathByte, segVal_testBit,
      getD_take_lt _ _ _ hq]
    simp [List.getD_eq_getElem?_getD, List.getElem?_drop]
  · have hb1 : (pathByte ch t) < 2 ^ 8 := by
      have := segVal_lt ((ch.drop (8*t)).take 8)
      refine lt_of_lt_of_le this (Nat.pow_le_pow_right (by norm_num) ?_)
      simp
    have hb2 : cByte (segVal ch) t < 2 ^ 8 := by
      have := cByte_lt (segVal ch) t
      omega
    rw [Nat.testBit_lt_two_pow (lt_of_lt_of_le hb1 (Nat.pow_le_pow_right (by norm_num) hq)),
      Nat.testBit_lt_two_pow (lt_of_lt_of_le hb2 (Nat.pow_le_pow_right (by norm_num) hq))]

lemma pathBytes_eq_natToBytes (ch : List Bool) (hlen : ch.length = 64) :
    pathBytes ch = natToBytes (segVal ch) := by
  apply List.ext_getElem
  · simp [pathBytes, natToBytes]
  · intro i h1 h2
    have hi : i < 8 := by simpa [pathBytes] using h1
    have e1 : (pathBytes ch)[i] = pathByte ch i := by
      simp [pathBytes]
    have e2 : (natToBytes (segVal ch))[i] = (natToBytes (segVal ch)).getD i 0 := by
      rw [List.getD_eq_getElem _ _ h2]
    rw [e1, e2, natToBytes_getD _ _ hi, pathByte_eq_cByte ch i hlen hi]

/-! ## Pure pass structure -/

lemma passFrom_shape (devs : List Nat) (c : Nat) :
    ∀ (k : Nat) (chosen : List Bool) (last next : Int) res,
    passFrom devs c chosen k last next = some res →
    ∃ tl, res.1 = chosen ++ tl ∧ tl.length = k := by
  intro k
  induction k with
  | zero =>
    intro chosen last next res h
    simp only [passFrom, Option.some.injEq] at h
    subst h
    exact ⟨[], by simp, by simp⟩
  | succ k ih =>
    intro chosen last next res h
    simp only [passFrom] at h
    split_ifs at h
    all_goals
      first
      | exact absurd h (by simp)
      | (obtain ⟨tl, h1, h2⟩ := ih _ _ _ _ h
         exact ⟨_ :: tl, by simpa using h1, by simpa using h2⟩)

lemma passFrom_add (devs : List Nat) (c : Nat) :
    ∀ (k1 k2 : Nat) (chosen : List Bool) (last next : Int),
    passFrom devs c chosen (k1 + k2) last next =
      (passFrom devs c chosen k1 last next).bind
        (fun r => passFrom devs c r.1 k2 r.2.1 r.2.2) := by
  intro k1
  induction k1 with
  | zero => intro k2 chosen last next; simp [passFrom]
  | succ k1 ih =>
    intro k2 chosen last next
    have harity : k1 + 1 + k2 = (k1 + k2) + 1 := by omega
    rw [harity]
    simp only [passFrom]
    split_ifs <;> first | rfl | (rw [ih])

/-! ## Equivalence of the embedded search with the pure pass -/

lemma lor128 : ∀ x, x < 128 → x ||| 128 = x + 128 := by decide

lemma simLL_readb_search (devs : List Nat) (chosen : List Bool) (crc : Nat) :
    (simLL devs).readb 2 ⟨.searching chosen, crc⟩ =
      (pairVal devs chosen, ⟨.searching chosen, crcUpd crc (pairVal devs chosen) 2⟩) := by
  simp [simLL]

lemma simLL_writeb_search (devs : List Nat) (chosen : List Bool) (crc v : Nat) :
    (simLL devs).writeb v 1 ⟨.searching chosen, crc⟩ =
      ⟨.searching (chosen ++ [decide (v % 2 = 1)]), crc⟩ := by
  simp [simLL]

lemma data_step (x j : Nat) (hj : j ≤ 7) (hx : x < 2 ^ j) :
    (x * 2 ^ (8 - j)) >>> 1 = x * 2 ^ (8 - (j+1)) ∧
    ((x * 2 ^ (8 - j)) >>> 1) ||| 128 = (x + 2 ^ j) * 2 ^ (8 - (j+1)) := by
  have h1 : 8 - j = (8 - (j+1)) + 1 := by omega
  have hdiv : (x * 2 ^ (8 - j)) >>> 1 = x * 2 ^ (8 - (j+1)) := by
    rw [h1, Nat.shiftRight_one, pow_succ, ← mul_assoc, Nat.mul_div_cancel _ (by norm_num)]
  have hb : x * 2 ^ (8 - (j+1)) < 128 := by
    have h2 : x * 2 ^ (8 - (j+1)) < 2 ^ j * 2 ^ (8 - (j+1)) :=
      (Nat.mul_lt_mul_right (Nat.pos_pow_of_pos _ (by norm_num))).mpr hx
    have h3 : 2 ^ j * 2 ^ (8 - (j+1)) = 2 ^ 7 := by
      rw [← pow_add]
      congr 1
      omega
    rw [h3] at h2
    simpa using h2
  refine ⟨hdiv, ?_⟩
  rw [hdiv, lor128 _ hb]
  have h4 : (2 : Nat) ^ j * 2 ^ (8 - (j+1)) = 128 := by
    rw [← pow_add]
    have : j + (8 - (j+1)) = 7 := by omega
    rw [this]
    norm_num
  rw [add_mul, h4]

lemma searchBits_sim (devs : List Nat) (c : Nat) (i : Nat) :
    ∀ (k j : Nat) (chosen : List Bool) (data pos : Nat) (last next : Int) (crc : Nat)
      (res : List Bool × Int × Int),
    j + k = 8 →
    chosen.length = 8*i + j →
    pos = chosen.length →
    data = segVal (chosen.drop (8*i)) * 2 ^ (8 - j) →
    passFrom devs c chosen k last next = some res →
    ∃ crc2, searchBits (simLL devs) (cByte c i) j k data pos last next
        ⟨.searching chosen, crc⟩ =
      .ok (segVal (res.1.drop (8*i)), 8*i + 8, res.2.1, res.2.2,
        (⟨.searching res.1, crc2⟩ : SimState)) := by
  intro k
  induction k with
  | zero =>
    intro j chosen data pos last next crc res hjk hlen hpos hdata hp
    simp only [passFrom, Option.some.injEq] at hp
    subst hp
    refine ⟨crc, ?_⟩
    rw [searchBits]
    simp only [hdata]
    have hj : j = 8 := by omega
    have h0 : 8 - j = 0 := by omega
    rw [h0, pow_zero, mul_one, hpos, hlen, hj]
  | succ k ih =>
    intro j chosen data pos last next crc res hjk hlen hpos hdata hp
    have hj7 : j ≤ 7 := by omega
    have hseglen : (chosen.drop (8*i)).length = j := by
      rw [List.length_drop, hlen]
      omega
    have hsegvlt : segVal (chosen.drop (8*i)) < 2 ^ j := by
      have := segVal_lt (chosen.drop (8*i))
      rwa [hseglen] at this
    obtain ⟨hshift, hlor⟩ := data_step (segVal (chosen.drop (8*i))) j hj7 hsegvlt
    have hdrop : ∀ b : Bool, (chosen ++ [b]).drop (8*i) = chosen.drop (8*i) ++ [b] :=
      fun b => List.drop_append_of_le_length (by omega)
    have hsegT : segVal (chosen.drop (8*i) ++ [true]) =
        segVal (chosen.drop (8*i)) + 2 ^ j := by
      rw [segVal_append, hseglen]
      simp [segVal]
    have hsegF : segVal (chosen.drop (8*i) ++ [false]) = segVal (chosen.drop (8*i)) := by
      rw [segVal_append, hseglen]
      simp [segVal]
    have hlen1 : ∀ b : Bool, (chosen ++ [b]).length = 8*i + (j+1) := by
      intro b
      simp [hlen]
      omega
    have hdata1 : segVal ((chosen ++ [true]).drop (8*i)) * 2 ^ (8 - (j+1)) =
        data >>> 1 ||| 128 := by
      rw [hdrop, hsegT, hdata, hlor]
    have hdata0 : segVal ((chosen ++ [false]).drop (8*i)) * 2 ^ (8 - (j+1)) =
        data >>> 1 := by
      rw [hdrop, hsegF, hdata, hshift]
    have hcitest : (cByte c i &&& 1 <<< j ≠ 0) ↔ c.testBit chosen.length = true := by
      rw [land_one_shiftLeft, cByte_testBit c i j (by omega), hlen]
    subst hpos
    simp only [passFrom] at hp
    split_ifs at hp with hv0 hplast hlastp hcbit hv1 hv2
    · -- v = 0, flip position
      obtain ⟨crc2, hrec⟩ := ih (j+1) (chosen ++ [true]) (data >>> 1 ||| 128)
        (chosen.length + 1) (-1) next (crcUpd crc (pairVal devs chosen) 2) res
        (by omega) (hlen1 true) (by simp) hdata1.symm hp
      refine ⟨crc2, ?_⟩
      rw [searchBits]
      simp only [simLL_readb_search]
      rw [if_pos hv0, if_pos hplast, simLL_writeb_search]
      exact hrec
    · -- v = 0, deeper than cursor: 0 branch, record position
      obtain ⟨crc2, hrec⟩ := ih (j+1) (chosen ++ [false]) (data >>> 1)
        (chosen.length + 1) last (chosen.length : Int) (crcUpd crc (pairVal devs chosen) 2) res
        (by omega) (hlen1 false) (by simp) hdata0.symm hp
      refine ⟨crc2, ?_⟩
      rw [searchBits]
      simp only [simLL_readb_search]
      rw [if_pos hv0, if_neg hplast, if_pos hlastp, simLL_writeb_search]
      exact hrec
    · -- v = 0, shallower: buffer bit 1
      obtain ⟨crc2, hrec⟩ := ih (j+1) (chosen ++ [true]) (data >>> 1 ||| 128)
        (chosen.length + 1) last next (crcUpd crc (pairVal devs chosen) 2) res
        (by omega) (hlen1 true) (by simp) hdata1.symm hp
      refine ⟨crc2, ?_⟩
      rw [searchBits]
      simp only [simLL_readb_search]
      rw [if_pos hv0, if_neg hplast, if_neg hlastp, if_pos (hcitest.mpr hcbit),
        simLL_writeb_search]
      exact hrec
    · -- v = 0, shallower: buffer bit 0, record position
      obtain ⟨crc2, hrec⟩ := ih (j+1) (chosen ++ [false]) (data >>> 1)
        (chosen.length + 1) last (chosen.length : Int) (crcUpd crc (pairVal devs chosen) 2) res
        (by omega) (hlen1 false) (by simp) hdata0.symm hp
      refine ⟨crc2, ?_⟩
      rw [searchBits]
      simp only [simLL_readb_search]
      rw [if_pos hv0, if_neg hplast, if_neg hlastp,
        if_neg (fun hcc => hcbit (hcitest.mp hcc)), simLL_writeb_search]
      exact hrec
    · -- v = 1: only ones
      obtain ⟨crc2, hrec⟩ := ih (j+1) (chosen ++ [true]) (data >>> 1 ||| 128)
        (chosen.length + 1) last next (crcUpd crc (pairVal devs chosen) 2) res
        (by omega) (hlen1 true) (by simp) hdata1.symm hp
      refine ⟨crc2, ?_⟩
      rw [searchBits]
      simp only [simLL_readb_search]
      rw [if_neg hv0, if_pos hv1, simLL_writeb_search]
      exact hrec
    · -- v = 2: only zeros
      obtain ⟨crc2, hrec⟩ := ih (j+1) (chosen ++ [false]) (data >>> 1)
        (chosen.length + 1) last next (crcUpd crc (pairVal devs chosen) 2) res
        (by omega) (hlen1 false) (by simp) hdata0.symm hp
      refine ⟨crc2, ?_⟩
      rw [searchBits]
      simp only [simLL_readb_search]
      rw [if_neg hv0, if_neg hv1, if_pos hv2, simLL_writeb_search]
      exact hrec

lemma searchOuter_sim (devs : List Nat) (c : Nat) :
    ∀ (kB i : Nat) (code : List Nat) (chosen : List Bool) (pos : Nat)
      (last next : Int) (crc : Nat) (res : List Bool × Int × Int),
    i + kB = 8 →
    chosen.length = 8*i →
    pos = chosen.length →
    code.length = 8 →
    (∀ t, i ≤ t → t < 8 → code.getD t 0 = cByte c t) →
    passFrom devs c chosen (8*kB) last next = some res →
    ∃ (crc2 : Nat) (codeF : List Nat),
      searchOuter (simLL devs) i kB code pos last next ⟨.searching chosen, crc⟩ =
        (res.2.2, codeF, ⟨.searching res.1, crc2⟩) ∧
      codeF.length = 8 ∧
      (∀ t, t < i → codeF.getD t 0 = code.getD t 0) ∧
      (∀ t, i ≤ t → t < 8 → codeF.getD t 0 = pathByte res.1 t) := by
  intro kB
  induction kB with
  | zero =>
    intro i code chosen pos last next crc res hik hlen hpos hclen hcode hp
    simp only [Nat.mul_zero, passFrom, Option.some.injEq] at hp
    subst hp
    refine ⟨crc, code, ?_, hclen, fun t ht => rfl, fun t ht1 ht2 => by omega⟩
    rw [searchOuter]
  | succ kB ih =>
    intro i code chosen pos last next crc res hik hlen hpos hclen hcode hp
    have hi7 : i ≤ 7 := by omega
    have hsplit : 8 * (kB + 1) = 8 + 8 * kB := by ring
    rw [hsplit, passFrom_add] at hp
    rcases hmid : passFrom devs c chosen 8 last next with _ | mid
    · rw [hmid] at hp
      exact absurd hp (by simp)
    rw [hmid] at hp
    simp only [Option.some_bind] at hp
    obtain ⟨tl, htl, htllen⟩ := passFrom_shape devs c 8 chosen last next mid hmid
    have hmidlen : mid.1.length = 8*i + 8 := by
      rw [htl]
      simp [hlen, htllen]
    obtain ⟨crcB, hbits⟩ := searchBits_sim devs c i 8 0 chosen 0 pos last next crc mid
      (by omega) (by omega) hpos (by
        rw [List.drop_eq_nil_of_le (by omega)]
        simp [segVal]) hmid
    have hci : code.getD i 0 = cByte c i := hcode i le_rfl (by omega)
    obtain ⟨crc2, codeF, heq, hflen, hflt, hfge⟩ :=
      ih (i+1) (code.set i (segVal (mid.1.drop (8*i)))) mid.1 (8*i + 8)
        mid.2.1 mid.2.2 crcB res (by omega) (by omega) (by omega)
        (by simpa using hclen)
        (by
          intro t ht1 ht2
          rw [List.getD_eq_getElem?_getD, List.getElem?_set_ne (by omega),
            ← List.getD_eq_getElem?_getD]
          exact hcode t (by omega) ht2)
        hp
    obtain ⟨tl2, htl2, htl2len⟩ := passFrom_shape devs c (8*kB) mid.1 mid.2.1 mid.2.2 res hp
    refine ⟨crc2, codeF, ?_, hflen, ?_, ?_⟩
    · rw [searchOuter, hci, hbits]
      exact heq
    · intro t ht
      rw [hflt t (by omega), List.getD_eq_getElem?_getD,
        List.getElem?_set_ne (by omega), ← List.getD_eq_getElem?_getD]
    · intro t ht1 ht2
      rcases Nat.eq_or_lt_of_le ht1 with hti | hti
      · rw [← hti]
        rw [hflt i (by omega), List.getD_eq_getElem?_getD,
          List.getElem?_set_self (by omega), Option.getD_some, pathByte, htl2]
        rw [List.drop_append_of_le_length (by omega)]
        have hdl : (mid.1.drop (8*i)).length = 8 := by
          rw [List.length_drop, hmidlen]
          omega
        rw [List.take_left' hdl]
      · exact hfge t (by omega) ht2

lemma search_sim (devs : List Nat) (c : Nat) (code : List Nat) (last : Int)
    (crc : Nat) (res : List Bool × Int × Int)
    (hlen : code.length = 8) (hcode : ∀ t, t < 8 → code.getD t 0 = cByte c t)
    (hp : passFrom devs c [] 64 last 64 = some res) :
    (∃ crc2, search (simLL devs) code last ⟨.searching [], crc⟩ =
      (res.2.2, pathBytes res.1, ⟨.searching res.1, crc2⟩)) ∧
    res.1.length = 64 := by
  have hp' : passFrom devs c [] (8*8) last 64 = some res := hp
  obtain ⟨crc2, codeF, heq, hflen, hflt, hfge⟩ :=
    searchOuter_sim devs c 8 0 code [] 0 last 64 crc res (by omega) (by simp)
      (by simp) hlen (fun t _ ht2 => hcode t ht2) hp'
  obtain ⟨tl, htl, htllen⟩ := passFrom_shape devs c 64 [] last 64 res hp
  constructor
  · refine ⟨crc2, ?_⟩
    rw [search, heq]
    congr 1
    congr 1
    apply List.ext_getElem
    · simp [pathBytes, hflen]
    · intro t h1 h2
      have ht8 : t < 8 := by
        rw [hflen] at h1
        exact h1
      rw [← List.getD_eq_getElem _ 0 h1, ← List.getD_eq_getElem _ 0 h2,
        hfge t (by omega) ht8]
      simp [pathBytes, List.getD_eq_getElem?_getD, List.getElem?_range, ht8]
  · rw [htl]
    simpa using htllen

lemma simLL_reset (devs : List Nat) (hne : devs ≠ []) (s : SimState) :
    (simLL devs).reset s = (true, ⟨.awaitCmd, s.crc⟩) := by
  simp [simLL, hne]

lemma simLL_cmd_search (devs : List Nat) (crc : Nat) :
    (simLL devs).writeb 0xF0 8 ⟨.awaitCmd, crc⟩ = ⟨.searching [], crc⟩ := by
  simp [simLL]

/-- A search_rom call with the wildcard family on the simulated bus: one
reset, the SEARCH_ROM command, one delegated pass. -/
lemma search_rom_sim (devs : List Nat) (hne : devs ≠ []) (c : Nat)
    (code : List Nat) (last : Int) (s : SimState) (res : List Bool × Int × Int)
    (hlen : code.length = 8) (hcode : ∀ t, t < 8 → code.getD t 0 = cByte c t)
    (hp : passFrom devs c [] 64 last 64 = some res) :
    ∃ crc2, search_rom (simLL devs) 0 1 code last s =
      some (res.2.2, pathBytes res.1, ⟨.searching res.1, crc2⟩) := by
  obtain ⟨⟨crc2, heq⟩, -⟩ := search_sim devs c code last s.crc res hlen hcode hp
  refine ⟨crc2, ?_⟩
  rw [search_rom, simLL_reset devs hne s]
  simp only [simLL_cmd_search, heq]
  rw [if_neg (by simp)]

/-! ## Participating sets and the candidate cursor -/

lemma mem_part_iff (devs : List Nat) (ch : List Bool) (d : Nat) :
    d ∈ part devs ch ↔ d ∈ devs ∧ matchFrom d 0 ch = true := by
  simp [part, List.mem_filter]

lemma mem_part_append (devs : List Nat) (ch : List Bool) (b : Bool) (d : Nat) :
    d ∈ part devs (ch ++ [b]) ↔ d ∈ part devs ch ∧ d.testBit ch.length = b := by
  rw [mem_part_iff, mem_part_iff, matchFrom_append]
  simp only [matchFrom, Bool.and_true, Bool.and_eq_true, beq_iff_eq, Nat.zero_add]
  tauto

lemma part_take_of_append (devs : List Nat) (ch tl : List Bool) :
    part devs ((ch ++ tl).take ch.length) = part devs ch := by
  rw [List.take_append_of_le_length le_rfl, List.take_length]

lemma nextOut_nil (devs : List Nat) (ch : List Bool) (a : Nat) (n0 : Int) :
    nextOut devs ch a a n0 = n0 := by
  simp [nextOut]

lemma nextOut_step (devs : List Nat) (ch : List Bool) (a b : Nat) (n0 : Int)
    (h : a < b) :
    nextOut devs ch a b n0 =
      nextOut devs ch (a+1) b (if zdb devs ch a then (a : Int) else n0) := by
  have hsub : b - a = (b - (a+1)) + 1 := by omega
  rw [nextOut, hsub, List.range'_succ a (b - (a+1)) 1]
  rcases hz : zdb devs ch a with hf | ht <;>
    simp [nextOut, List.filter_cons, hz]

lemma nextOut_congr_b (devs : List Nat) (ch : List Bool) (a : Nat) (n0 : Int)
    {b b' : Nat} (h : b = b') :
    nextOut devs ch a b n0 = nextOut devs ch a b' n0 := by
  rw [h]

/-- The descent phase of a search pass: once the cursor is strictly above
every remaining position, the pass greedily takes the 0 branch at every
discrepancy, recording each such position, and ends on a path that is still
matched by a device and lexicographically below every current participant. -/
lemma pass_descend (devs : List Nat) (c : Nat) :
    ∀ (k : Nat) (chosen : List Bool) (last next : Int),
    part devs chosen ≠ [] →
    last < (chosen.length : Int) →
    ∃ ch2 : List Bool,
      passFrom devs c chosen k last next =
        some (ch2, last, nextOut devs ch2 chosen.length (chosen.length + k) next) ∧
      (∃ tl, ch2 = chosen ++ tl ∧ tl.length = k) ∧
      part devs ch2 ≠ [] ∧
      (∀ d ∈ part devs chosen, matchFrom d 0 ch2 = true ∨
        ∃ p, chosen.length ≤ p ∧ p < chosen.length + k ∧
          matchFrom d 0 (ch2.take p) = true ∧ ch2.getD p false = false ∧
          d.testBit p = true) := by
  intro k
  induction k with
  | zero =>
    intro chosen last next hne hlast
    refine ⟨chosen, ?_, ⟨[], by simp, rfl⟩, hne, ?_⟩
    · have hz : nextOut devs chosen chosen.length (chosen.length + 0) next = next := by
        rw [nextOut_congr_b devs chosen _ next
          (by omega : chosen.length + 0 = chosen.length), nextOut_nil]
      rw [passFrom, hz]
    · intro d hd
      exact Or.inl ((mem_part_iff devs chosen d).mp hd).2
  | succ k ih =>
    intro chosen last next hne hlast
    rcases ha1 : (part devs chosen).all (fun d => d.testBit chosen.length) with hf1 | ht1
    · rcases ha0 : (part devs chosen).all (fun d => !(d.testBit chosen.length)) with hf0 | ht0
      · -- discrepancy: both branches inhabited, take 0 and record
        have hv : pairVal devs chosen = 0 := by
          simp [pairVal, ha1, ha0]
        obtain ⟨d0, hd0, hd0b⟩ := List.all_eq_false.mp ha1
        have hd0b' : d0.testBit chosen.length = false := by
          simpa using hd0b
        have hne2 : part devs (chosen ++ [false]) ≠ [] := by
          intro hnil
          have : d0 ∈ part devs (chosen ++ [false]) :=
            (mem_part_append devs chosen false d0).mpr ⟨hd0, hd0b'⟩
          rw [hnil] at this
          exact absurd this (List.not_mem_nil d0)
        obtain ⟨ch2, heq, ⟨tl, htl, htllen⟩, hne3, hmin⟩ :=
          ih (chosen ++ [false]) last (chosen.length : Int) hne2
            (by simp; omega)
        have hch2take : ch2.take chosen.length = chosen := by
          rw [htl, List.append_assoc, List.take_append_of_le_length (by simp),
            List.take_length]
        have hch2get : ch2.getD chosen.length false = false := by
          rw [htl, List.append_assoc, getD_append_ge _ _ _ _ (by simp)]
          simp
        have hch2getT : ch2.getD chosen.length true = false := by
          rw [htl, List.append_assoc, getD_append_ge _ _ _ _ (by simp)]
          simp
        have hzdb : zdb devs ch2 chosen.length = true := by
          rw [zdb, hch2take, hch2getT]
          simp only [Bool.not_false, Bool.true_and]
          rw [List.any_eq_true]
          obtain ⟨d1, hd1, hd1b⟩ := List.all_eq_false.mp ha0
          exact ⟨d1, hd1, by simpa using hd1b⟩
        refine ⟨ch2, ?_, ⟨false :: tl, by simpa using htl, by simp [htllen]⟩, hne3, ?_⟩
        · rw [passFrom]
          simp only [hv, if_pos rfl, if_neg (by omega : ¬((chosen.length : Int) = last)),
            if_pos (by omega : last < (chosen.length : Int))]
          rw [heq]
          have e1 : (chosen ++ [false]).length = chosen.length + 1 := by simp
          rw [e1, nextOut_step devs ch2 chosen.length (chosen.length + (k+1)) next
            (by omega), hzdb]
          simp only [if_true]
          rw [nextOut_congr_b devs ch2 (chosen.length + 1) ((chosen.length : Int))
            (by omega : chosen.length + 1 + k = chosen.length + (k+1))]
        · intro d hd
          rcases hb : d.testBit chosen.length with hbf | hbt
          · have hd' : d ∈ part devs (chosen ++ [false]) :=
              (mem_part_append devs chosen false d).mpr ⟨hd, hb⟩
            rcases hmin d hd' with hm | ⟨p, hp1, hp2, hp3, hp4, hp5⟩
            · exact Or.inl hm
            · exact Or.inr ⟨p, by simp at hp1; omega, by simp at hp2; omega, hp3, hp4, hp5⟩
          · refine Or.inr ⟨chosen.length, le_rfl, by omega, ?_, hch2get, hb⟩
            rw [hch2take]
            exact ((mem_part_iff devs chosen d).mp hd).2
      · -- only zeros: forced 0 branch, no discrepancy
        have hv : pairVal devs chosen = 2 := by
          simp [pairVal, ha1, ha0]
        have hsub : ∀ d ∈ part devs chosen, d ∈ part devs (chosen ++ [false]) := by
          intro d hd
          refine (mem_part_append devs chosen false d).mpr ⟨hd, ?_⟩
          have := List.all_eq_true.mp ha0 d hd
          simpa using this
        have hne2 : part devs (chosen ++ [false]) ≠ [] := by
          obtain ⟨d0, hd0⟩ := List.exists_mem_of_ne_nil _ hne
          intro hnil
          have := hsub d0 hd0
          rw [hnil] at this
          exact absurd this (List.not_mem_nil d0)
        obtain ⟨ch2, heq, ⟨tl, htl, htllen⟩, hne3, hmin⟩ :=
          ih (chosen ++ [false]) last next hne2 (by simp; omega)
        have hch2take : ch2.take chosen.length = chosen := by
          rw [htl, List.append_assoc, List.take_append_of_le_length (by simp),
            List.take_length]
        have hzdb : zdb devs ch2 chosen.length = false := by
          rw [zdb, hch2take]
          simp only [Bool.and_eq_false_iff]
          right
          rw [List.any_eq_false]
          intro d hd
          have := List.all_eq_true.mp ha0 d hd
          simpa using this
        refine ⟨ch2, ?_, ⟨false :: tl, by simpa using htl, by simp [htllen]⟩, hne3, ?_⟩
        · have hpf : passFrom devs c chosen (k+1) last next =
              passFrom devs c (chosen ++ [false]) k last next := by
            rw [passFrom]
            simp [hv]
          rw [hpf, heq]
          have e1 : (chosen ++ [false]).length = chosen.length + 1 := by simp
          rw [e1, nextOut_step devs ch2 chosen.length (chosen.length + (k+1)) next
            (by omega), hzdb]
          rw [if_neg (show ¬(false = true) by simp)]
          rw [nextOut_congr_b devs ch2 (chosen.length + 1) next
            (by omega : chosen.length + 1 + k = chosen.length + (k+1))]
        · intro d hd
          rcases hmin d (hsub d hd) with hm | ⟨p, hp1, hp2, hp3, hp4, hp5⟩
          · exact Or.inl hm
          · exact Or.inr ⟨p, by simp at hp1; omega, by simp at hp2; omega, hp3, hp4, hp5⟩
    · -- only ones: forced 1 branch
      have hv : pairVal devs chosen = 1 + 2 * (if (part devs chosen).all (fun d => !(d.testBit chosen.length)) then 1 else 0) := by
        simp [pairVal, ha1]
      have hv1 : pairVal devs chosen = 1 := by
        rcases ha0 : (part devs chosen).all (fun d => !(d.testBit chosen.length)) with hf0 | ht0
        · simpa [ha0] using hv
        · obtain ⟨d0, hd0⟩ := List.exists_mem_of_ne_nil _ hne
          have h1 := List.all_eq_true.mp ha1 d0 hd0
          have h0 := List.all_eq_true.mp ha0 d0 hd0
          rw [h1] at h0
          exact absurd h0 (by simp)
      have hsub : ∀ d ∈ part devs chosen, d ∈ part devs (chosen ++ [true]) := by
        intro d hd
        exact (mem_part_append devs chosen true d).mpr ⟨hd, List.all_eq_true.mp ha1 d hd⟩
      have hne2 : part devs (chosen ++ [true]) ≠ [] := by
        obtain ⟨d0, hd0⟩ := List.exists_mem_of_ne_nil _ hne
        intro hnil
        have := hsub d0 hd0
        rw [hnil] at this
        exact absurd this (List.not_mem_nil d0)
      obtain ⟨ch2, heq, ⟨tl, htl, htllen⟩, hne3, hmin⟩ :=
        ih (chosen ++ [true]) last next hne2 (by simp; omega)
      have hch2getT : ch2.getD chosen.length true = true := by
        rw [htl, List.append_assoc, getD_append_ge _ _ _ _ (by simp)]
        simp
      have hzdb : zdb devs ch2 chosen.length = false := by
        rw [zdb, hch2getT]
        simp
      refine ⟨ch2, ?_, ⟨true :: tl, by simpa using htl, by simp [htllen]⟩, hne3, ?_⟩
      · have hpf : passFrom devs c chosen (k+1) last next =
            passFrom devs c (chosen ++ [true]) k last next := by
          rw [passFrom]
          simp [hv1]
        rw [hpf, heq]
        have e1 : (chosen ++ [true]).length = chosen.length + 1 := by simp
        rw [e1, nextOut_step devs ch2 chosen.length (chosen.length + (k+1)) next
          (by omega), hzdb]
        rw [if_neg (show ¬(false = true) by simp)]
        rw [nextOut_congr_b devs ch2 (chosen.length + 1) next
          (by omega : chosen.length + 1 + k = chosen.length + (k+1))]
      · intro d hd
        rcases hmin d (hsub d hd) with hm | ⟨p, hp1, hp2, hp3, hp4, hp5⟩
        · exact Or.inl hm
        · exact Or.inr ⟨p, by simp at hp1; omega, by simp at hp2; omega, hp3, hp4, hp5⟩

/-! ## The replay phase and the whole-pass characterization -/

lemma mem_S1_iff (devs : List Nat) (c L d : Nat) :
    d ∈ part devs (bitsPre c L ++ [true]) ↔
      d ∈ devs ∧ agreeBelow d c L ∧ d.testBit L = true := by
  rw [mem_part_append, mem_part_iff, matchFrom_bitsPre, bitsPre_length]
  tauto

lemma S1_sub_part (devs : List Nat) (c L m : Nat) (hm : m ≤ L) :
    ∀ d ∈ part devs (bitsPre c L ++ [true]), d ∈ part devs (bitsPre c m) := by
  intro d hd
  obtain ⟨hdev, hag, -⟩ := (mem_S1_iff devs c L d).mp hd
  rw [mem_part_iff, matchFrom_bitsPre]
  exact ⟨hdev, fun q hq => hag q (by omega)⟩

lemma pathSeed_getD_lt (c L m : Nat) (tl : List Bool) (hm : m < L) (dv : Bool) :
    (((bitsPre c L ++ [true]) ++ tl).getD m dv) = c.testBit m := by
  rw [List.append_assoc, getD_append_lt _ _ _ _ (by rw [bitsPre_length]; omega)]
  exact bitsPre_getD c L m hm dv

lemma pathSeed_take (c L m : Nat) (tl : List Bool) (hm : m ≤ L) :
    ((bitsPre c L ++ [true]) ++ tl).take m = bitsPre c m := by
  rw [List.append_assoc, List.take_append_of_le_length (by rw [bitsPre_length]; omega),
    bitsPre_take c L m hm]

/-- The replay phase: starting below the cursor L with the path equal to
the previous code bits, a pass retraces the previous code up to L, takes
the 1 branch at L, and then descends to the least remaining participant;
the candidate cursor collects exactly the unresolved 0-positions along the
final path. -/
lemma pass_replay (devs : List Nat) (c : Nat) (L : Nat) (hL : L < 64) :
    ∀ (k m : Nat) (next : Int),
    m + k = 64 → m ≤ L →
    part devs (bitsPre c L ++ [true]) ≠ [] →
    ∃ (ch2 : List Bool) (lf : Int),
      passFrom devs c (bitsPre c m) k (L : Int) next =
        some (ch2, lf, nextOut devs ch2 m 64 next) ∧
      (∃ tl, ch2 = (bitsPre c L ++ [true]) ++ tl) ∧
      ch2.length = 64 ∧
      part devs ch2 ≠ [] ∧
      (∀ d ∈ part devs (bitsPre c L ++ [true]), matchFrom d 0 ch2 = true ∨
        ∃ p, L < p ∧ p < 64 ∧
          matchFrom d 0 (ch2.take p) = true ∧ ch2.getD p false = false ∧
          d.testBit p = true) := by
  intro k
  induction k with
  | zero => intro m next hmk hmL hS1; omega
  | succ k ih =>
    intro m next hmk hmL hS1
    obtain ⟨d0, hd0⟩ := List.exists_mem_of_ne_nil _ hS1
    obtain ⟨hd0dev, hd0ag, hd0bit⟩ := (mem_S1_iff devs c L d0).mp hd0
    have hd0P : d0 ∈ part devs (bitsPre c m) := S1_sub_part devs c L m hmL d0 hd0
    have hPne : part devs (bitsPre c m) ≠ [] := by
      intro hnil
      rw [hnil] at hd0P
      exact absurd hd0P (List.not_mem_nil d0)
    have hlenm : (bitsPre c m).length = m := bitsPre_length c m
    have hseed_len : (bitsPre c L ++ [true]).length = L + 1 := by
      simp [bitsPre_length]
    rcases Nat.eq_or_lt_of_le hmL with hmeq | hmlt
    · -- at the cursor position: take the 1 branch
      subst hmeq
      have ha0 : ((part devs (bitsPre c m)).all fun d => !(d.testBit m)) = false := by
        rw [List.all_eq_false]
        refine ⟨d0, hd0P, ?_⟩
        rw [hd0bit]
        simp
      have hstep : ∀ last2 : Int,
          part devs (bitsPre c m ++ [true]) ≠ [] →
          last2 < ((bitsPre c m ++ [true]).length : Int) →
          ∃ ch2,
            passFrom devs c (bitsPre c m ++ [true]) k last2 next =
              some (ch2, last2, nextOut devs ch2 m 64 next) ∧
            (∃ tl, ch2 = (bitsPre c m ++ [true]) ++ tl) ∧
            ch2.length = 64 ∧
            part devs ch2 ≠ [] ∧
            (∀ d ∈ part devs (bitsPre c m ++ [true]), matchFrom d 0 ch2 = true ∨
              ∃ p, m < p ∧ p < 64 ∧
                matchFrom d 0 (ch2.take p) = true ∧ ch2.getD p false = false ∧
                d.testBit p = true) := by
        intro last2 hne2 hlast2
        obtain ⟨ch2, heq, ⟨tl, htl, htllen⟩, hne3, hmin⟩ :=
          pass_descend devs c k (bitsPre c m ++ [true]) last2 next hne2 hlast2
        have e1 : (bitsPre c m ++ [true]).length = m + 1 := by simp [bitsPre_length]
        rw [e1] at heq hmin
        have hch2get : ch2.getD m true = true := by
          rw [htl, List.append_assoc, getD_append_ge _ _ _ _ (by rw [bitsPre_length])]
          simp [bitsPre_length]
        have hzdb : zdb devs ch2 m = false := by
          rw [zdb, hch2get]
          simp
        have hch2len : ch2.length = 64 := by
          rw [htl]
          simp only [List.length_append, bitsPre_length, List.length_cons,
            List.length_nil, htllen]
          omega
        refine ⟨ch2, ?_, ⟨tl, htl⟩, hch2len, hne3, ?_⟩
        · rw [heq, nextOut_step devs ch2 m 64 next (by omega), hzdb,
            if_neg (show ¬(false = true) by simp),
            nextOut_congr_b devs ch2 (m+1) next (by omega : m + 1 + k = 64)]
        · intro d hd
          rcases hmin d hd with hm2 | ⟨p, hp1, hp2, hp3, hp4, hp5⟩
          · exact Or.inl hm2
          · exact Or.inr ⟨p, by omega, by omega, hp3, hp4, hp5⟩
      rcases ha1 : ((part devs (bitsPre c m)).all fun d => d.testBit m) with hf1 | ht1
      · -- discrepancy at the cursor: flip to 1, cursor cleared
        have hv : pairVal devs (bitsPre c m) = 0 := by
          simp [pairVal, hlenm, ha1, ha0]
        have hpf : passFrom devs c (bitsPre c m) (k+1) (m : Int) next =
            passFrom devs c (bitsPre c m ++ [true]) k (-1) next := by
          rw [passFrom]
          simp [hv, hlenm]
        obtain ⟨ch2, heq2, hsh, hlen2, hne3, hmin2⟩ :=
          hstep (-1) hS1 (by rw [hseed_len]; omega)
        exact ⟨ch2, -1, by rw [hpf, heq2], hsh, hlen2, hne3, hmin2⟩
      · -- all participants carry 1 at the cursor: forced 1 branch
        have hv : pairVal devs (bitsPre c m) = 1 := by
          simp [pairVal, hlenm, ha1, ha0]
        have hpf : passFrom devs c (bitsPre c m) (k+1) (m : Int) next =
            passFrom devs c (bitsPre c m ++ [true]) k (m : Int) next := by
          rw [passFrom]
          simp [hv, hlenm]
        obtain ⟨ch2, heq2, hsh, hlen2, hne3, hmin2⟩ :=
          hstep (m : Int) hS1 (by rw [hseed_len]; push_cast; omega)
        exact ⟨ch2, (m : Int), by rw [hpf, heq2], hsh, hlen2, hne3, hmin2⟩
    · -- strictly below the cursor: replay the previous code bit
      have hd0m : d0.testBit m = c.testBit m := hd0ag m hmlt
      have hnext_seg : ∀ b : Bool, b = c.testBit m →
          bitsPre c m ++ [b] = bitsPre c (m+1) := by
        intro b hb
        rw [bitsPre_succ, hb]
      have hcall : ∀ next2 : Int,
          ∃ ch2 lf,
            passFrom devs c (bitsPre c (m+1)) k (L : Int) next2 =
              some (ch2, lf, nextOut devs ch2 (m+1) 64 next2) ∧
            (∃ tl, ch2 = (bitsPre c L ++ [true]) ++ tl) ∧
            ch2.length = 64 ∧
            part devs ch2 ≠ [] ∧
            (∀ d ∈ part devs (bitsPre c L ++ [true]), matchFrom d 0 ch2 = true ∨
              ∃ p, L < p ∧ p < 64 ∧
                matchFrom d 0 (ch2.take p) = true ∧ ch2.getD p false = false ∧
                d.testBit p = true) :=
        fun next2 => ih (m+1) next2 (by omega) (by omega) hS1
      have hc1 : ¬(((m : Nat) : Int) = (L : Int)) := by
        have : m ≠ L := Nat.ne_of_lt hmlt
        exact_mod_cast this
      have hc2 : ¬((L : Int) < ((m : Nat) : Int)) := by
        have : ¬(L < m) := Nat.not_lt.mpr (le_of_lt hmlt)
        exact_mod_cast this
      rcases ha1 : ((part devs (bitsPre c m)).all fun d => d.testBit m) with hf1 | ht1
      · rcases ha0 : ((part devs (bitsPre c m)).all fun d => !(d.testBit m)) with hf0 | ht0
        · -- discrepancy strictly below the cursor: follow the code buffer
          have hv : pairVal devs (bitsPre c m) = 0 := by
            simp [pairVal, hlenm, ha1, ha0]
          rcases hc : c.testBit m with hcf | hct
          · -- buffer bit 0: the position is recorded
            have hpf : passFrom devs c (bitsPre c m) (k+1) (L : Int) next =
                passFrom devs c (bitsPre c (m+1)) k (L : Int) ((m : Nat) : Int) := by
              rw [passFrom]
              simp only [hlenm, hv, if_pos rfl, if_true, if_neg hc1, if_neg hc2, hc,
                Bool.false_eq_true, if_false, hnext_seg false hc.symm]
            obtain ⟨ch2, lf, heq2, ⟨tl, htl⟩, hlen2, hne3, hmin2⟩ := hcall ((m : Nat) : Int)
            have hzdb : zdb devs ch2 m = true := by
              rw [zdb, htl, pathSeed_take c L m tl (by omega),
                pathSeed_getD_lt c L m tl hmlt true, hc]
              simp only [Bool.not_false, Bool.true_and, List.any_eq_true]
              obtain ⟨d1, hd1, hd1b⟩ := List.all_eq_false.mp ha0
              exact ⟨d1, hd1, by simpa using hd1b⟩
            refine ⟨ch2, lf, ?_, ⟨tl, htl⟩, hlen2, hne3, hmin2⟩
            rw [hpf, heq2, nextOut_step devs ch2 m 64 next (by omega), hzdb,
              if_pos rfl]
          · -- buffer bit 1: the candidate is untouched here
            have hpf : passFrom devs c (bitsPre c m) (k+1) (L : Int) next =
                passFrom devs c (bitsPre c (m+1)) k (L : Int) next := by
              rw [passFrom]
              simp only [hlenm, hv, if_pos rfl, if_true, if_neg hc1, if_neg hc2, hc,
                hnext_seg true hc.symm]
            obtain ⟨ch2, lf, heq2, ⟨tl, htl⟩, hlen2, hne3, hmin2⟩ := hcall next
            have hzdb : zdb devs ch2 m = false := by
              rw [zdb, htl, pathSeed_getD_lt c L m tl hmlt true, hc]
              simp
            refine ⟨ch2, lf, ?_, ⟨tl, htl⟩, hlen2, hne3, hmin2⟩
            rw [hpf, heq2, nextOut_step devs ch2 m 64 next (by omega), hzdb,
              if_neg (show ¬(false = true) by simp)]
        · -- all participants carry 0 here: forced 0 branch, no discrepancy
          have hv : pairVal devs (bitsPre c m) = 2 := by
            simp [pairVal, hlenm, ha1, ha0]
          have hcf : c.testBit m = false := by
            rw [← hd0m]
            have := List.all_eq_true.mp ha0 d0 hd0P
            simpa using this
          have hpf : passFrom devs c (bitsPre c m) (k+1) (L : Int) next =
              passFrom devs c (bitsPre c (m+1)) k (L : Int) next := by
            rw [passFrom]
            simp [hv, hnext_seg false hcf.symm]
          obtain ⟨ch2, lf, heq2, ⟨tl, htl⟩, hlen2, hne3, hmin2⟩ := hcall next
          have hzdb : zdb devs ch2 m = false := by
            rw [zdb, htl, pathSeed_take c L m tl (by omega),
              pathSeed_getD_lt c L m tl hmlt true, hcf]
            simp only [Bool.not_false, Bool.true_and]
            rw [List.any_eq_false]
            intro d hd
            have := List.all_eq_true.mp ha0 d hd
            simpa using this
          refine ⟨ch2, lf, ?_, ⟨tl, htl⟩, hlen2, hne3, hmin2⟩
          rw [hpf, heq2, nextOut_step devs ch2 m 64 next (by omega), hzdb,
            if_neg (show ¬(false = true) by simp)]
      · -- all participants carry 1 here: forced 1 branch
        have ha0 : ((part devs (bitsPre c m)).all fun d => !(d.testBit m)) = false := by
          rw [List.all_eq_false]
          refine ⟨d0, hd0P, ?_⟩
          rw [List.all_eq_true.mp ha1 d0 hd0P]
          simp
        have hv : pairVal devs (bitsPre c m) = 1 := by
          simp [pairVal, hlenm, ha1, ha0]
        have hct : c.testBit m = true := by
          rw [← hd0m]
          exact List.all_eq_true.mp ha1 d0 hd0P
        have hpf : passFrom devs c (bitsPre c m) (k+1) (L : Int) next =
            passFrom devs c (bitsPre c (m+1)) k (L : Int) next := by
          rw [passFrom]
          simp [hv, hnext_seg true hct.symm]
        obtain ⟨ch2, lf, heq2, ⟨tl, htl⟩, hlen2, hne3, hmin2⟩ := hcall next
        have hzdb : zdb devs ch2 m = false := by
          rw [zdb, htl, pathSeed_getD_lt c L m tl hmlt true, hct]
          simp
        refine ⟨ch2, lf, ?_, ⟨tl, htl⟩, hlen2, hne3, hmin2⟩
        rw [hpf, heq2, nextOut_step devs ch2 m 64 next (by omega), hzdb,
          if_neg (show ¬(false = true) by simp)]

/-! ## Whole-pass soundness over codes -/

lemma part_nil (devs : List Nat) : part devs [] = devs := by
  simp [part, matchFrom]

lemma bitsPre_zero (c : Nat) : bitsPre c 0 = [] := by
  simp [bitsPre]

lemma bitsPre_segVal (ch : List Bool) (hlen : ch.length = 64) :
    bitsPre (segVal ch) 64 = ch := by
  apply List.ext_getElem
  · rw [bitsPre_length, hlen]
  · intro q h1 h2
    have hq : q < 64 := by rw [bitsPre_length] at h1; exact h1
    rw [← List.getD_eq_getElem _ false h1, ← List.getD_eq_getElem _ false h2,
      bitsPre_getD _ _ _ hq, segVal_testBit]

lemma segVal_mem_of_part (devs : List Nat) (ch : List Bool)
    (h64 : ∀ d ∈ devs, d < 2 ^ 64) (hlen : ch.length = 64)
    (hne : part devs ch ≠ []) : segVal ch ∈ devs := by
  obtain ⟨d1, hd1⟩ := List.exists_mem_of_ne_nil _ hne
  obtain ⟨hdev, hmatch⟩ := (mem_part_iff devs ch d1).mp hd1
  have := (matchFrom_full d1 ch hlen (h64 d1 hdev)).mp hmatch
  rwa [← this]

lemma branch_to_lexLt (ch2 : List Bool) (hlen : ch2.length = 64) (d p : Nat)
    (hp : p < 64) (hmatch : matchFrom d 0 (ch2.take p) = true)
    (hbit0 : ch2.getD p false = false) (hbit1 : d.testBit p = true) :
    lexLt (segVal ch2) d := by
  refine ⟨p, hp, ?_, ?_, hbit1⟩
  · intro q hq
    have htl : (ch2.take p).length = p := by
      rw [List.length_take, hlen]
      omega
    have hd := (matchFrom_iff d (ch2.take p) 0).mp hmatch q (by rw [htl]; omega)
    rw [Nat.zero_add] at hd
    rw [segVal_testBit, hd, getD_take_lt _ _ _ hq]
  · rw [segVal_testBit, hbit0]

lemma match_to_eq (ch2 : List Bool) (hlen : ch2.length = 64) (d : Nat)
    (hd : d < 2 ^ 64) (hmatch : matchFrom d 0 ch2 = true) : d = segVal ch2 :=
  (matchFrom_full d ch2 hlen hd).mp hmatch

/-- A pass started from cursor FIRST finds the least device. -/
lemma pass_sound_first (devs : List Nat) (c : Nat) (hne : devs ≠ [])
    (h64 : ∀ d ∈ devs, d < 2 ^ 64) :
    ∃ (ch2 : List Bool) (lf : Int),
      passFrom devs c [] 64 (-1) 64 = some (ch2, lf, nextSpec devs (segVal ch2)) ∧
      ch2.length = 64 ∧
      segVal ch2 ∈ devs ∧
      (∀ d ∈ devs, d = segVal ch2 ∨ lexLt (segVal ch2) d) := by
  have hpne : part devs ([] : List Bool) ≠ [] := by
    rw [part_nil]
    exact hne
  obtain ⟨ch2, heq, ⟨tl, htl, htllen⟩, hne3, hmin⟩ :=
    pass_descend devs c 64 [] (-1) 64 hpne (by simp)
  have hlen : ch2.length = 64 := by
    rw [htl]
    simp [htllen]
  have hnext : nextOut devs ch2 (List.length ([] : List Bool)) (List.length ([] : List Bool) + 64) 64 =
      nextSpec devs (segVal ch2) := by
    rw [nextSpec, bitsPre_segVal ch2 hlen]
    simp only [List.length_nil]
  refine ⟨ch2, -1, by rw [heq, hnext], hlen,
    segVal_mem_of_part devs ch2 h64 hlen hne3, ?_⟩
  intro d hd
  have hd' : d ∈ part devs [] := by rw [part_nil]; exact hd
  rcases hmin d hd' with hm | ⟨p, hp1, hp2, hp3, hp4, hp5⟩
  · exact Or.inl (match_to_eq ch2 hlen d (h64 d hd) hm)
  · exact Or.inr (branch_to_lexLt ch2 hlen d p (by simpa using hp2) hp3 hp4 hp5)

/-- A pass started from an intermediate cursor L finds the least device
above the previous code in the branch taken at L. -/
lemma pass_sound_next (devs : List Nat) (c : Nat) (L : Nat) (hL : L < 64)
    (h64 : ∀ d ∈ devs, d < 2 ^ 64)
    (hS1 : part devs (bitsPre c L ++ [true]) ≠ []) :
    ∃ (ch2 : List Bool) (lf : Int),
      passFrom devs c [] 64 (L : Int) 64 = some (ch2, lf, nextSpec devs (segVal ch2)) ∧
      ch2.length = 64 ∧
      segVal ch2 ∈ devs ∧
      agreeBelow (segVal ch2) c L ∧ (segVal ch2).testBit L = true ∧
      (∀ d ∈ devs, agreeBelow d c L → d.testBit L = true →
        d = segVal ch2 ∨ lexLt (segVal ch2) d) := by
  obtain ⟨ch2, lf, heq, ⟨tl, htl⟩, hlen, hne3, hmin⟩ :=
    pass_replay devs c L hL 64 0 64 (by omega) (by omega) hS1
  rw [bitsPre_zero] at heq
  have hnext : nextOut devs ch2 0 64 64 = nextSpec devs (segVal ch2) := by
    rw [nextSpec, bitsPre_segVal ch2 hlen]
  have hagree : agreeBelow (segVal ch2) c L := by
    intro q hq
    rw [segVal_testBit, htl, pathSeed_getD_lt c L q tl hq false]
  have hbitL : (segVal ch2).testBit L = true := by
    rw [segVal_testBit, htl, List.append_assoc, getD_append_ge _ _ _ _ (by rw [bitsPre_length])]
    rw [bitsPre_length]
    simp
  refine ⟨ch2, lf, by rw [heq, hnext], hlen,
    segVal_mem_of_part devs ch2 h64 hlen hne3, hagree, hbitL, ?_⟩
  intro d hd hag hbit
  have hd' : d ∈ part devs (bitsPre c L ++ [true]) :=
    (mem_S1_iff devs c L d).mpr ⟨hd, hag, hbit⟩
  rcases hmin d hd' with hm | ⟨p, hp1, hp2, hp3, hp4, hp5⟩
  · exact Or.inl (match_to_eq ch2 hlen d (h64 d hd) hm)
  · exact Or.inr (branch_to_lexLt ch2 hlen d p hp2 hp3 hp4 hp5)

/-! ## The enumeration order -/

lemma lexLt_irrefl (c : Nat) : ¬ lexLt c c := by
  rintro ⟨p, -, -, h0, h1⟩
  rw [h0] at h1
  exact Bool.noConfusion h1

lemma lexLt_asymm (c d : Nat) : lexLt c d → ¬ lexLt d c := by
  rintro ⟨p1, hp1, hag1, hc1, hd1⟩ ⟨p2, hp2, hag2, hd2, hc2⟩
  rcases lt_trichotomy p1 p2 with h | h | h
  · have := hag2 p1 h
    rw [hd1, hc1] at this
    exact Bool.noConfusion this
  · subst h
    rw [hd1] at hd2
    exact Bool.noConfusion hd2
  · have := hag1 p2 h
    rw [hc2, hd2] at this
    exact Bool.noConfusion this

lemma lexLt_trans (a b c2 : Nat) : lexLt a b → lexLt b c2 → lexLt a c2 := by
  rintro ⟨p, hp, hagab, ha0, hb1⟩ ⟨r, hr, hagbc, hb0, hc1⟩
  rcases lt_trichotomy p r with h | h | h
  · refine ⟨p, hp, ?_, ha0, ?_⟩
    · intro q hq
      rw [hagab q hq, hagbc q (by omega)]
    · rw [← hagbc p h, hb1]
  · subst h
    rw [hb1] at hb0
    exact Bool.noConfusion hb0
  · refine ⟨r, hr, ?_, ?_, hc1⟩
    · intro q hq
      rw [hagab q (by omega), hagbc q hq]
    · rw [hagab r h, hb0]

lemma lexLt_trichotomy (c d : Nat) (hc : c < 2 ^ 64) (hd : d < 2 ^ 64) :
    c = d ∨ lexLt c d ∨ lexLt d c := by
  by_cases hne : c = d
  · exact Or.inl hne
  have hex : ∃ q, ¬(c.testBit q = d.testBit q) := by
    by_contra hall
    push_neg at hall
    exact hne (Nat.eq_of_testBit_eq fun q => hall q)
  right
  have hp := Nat.find_spec hex
  have hmin : ∀ q, q < Nat.find hex → c.testBit q = d.testBit q := by
    intro q hq
    have := Nat.find_min hex hq
    exact not_not.mp this
  have hlt64 : Nat.find hex < 64 := by
    by_contra h64
    push_neg at h64
    apply hp
    rw [Nat.testBit_lt_two_pow (lt_of_lt_of_le hc (Nat.pow_le_pow_right (by norm_num) h64)),
      Nat.testBit_lt_two_pow (lt_of_lt_of_le hd (Nat.pow_le_pow_right (by norm_num) h64))]
  rcases hcb : c.testBit (Nat.find hex) with hf | ht
  · rcases hdb : d.testBit (Nat.find hex) with hf2 | ht2
    · exact absurd (hcb.trans hdb.symm) hp
    · exact Or.inl ⟨Nat.find hex, hlt64, hmin, hcb, hdb⟩
  · rcases hdb : d.testBit (Nat.find hex) with hf2 | ht2
    · exact Or.inr ⟨Nat.find hex, hlt64, fun q hq => (hmin q hq).symm, hdb, hcb⟩
    · exact absurd (hcb.trans hdb.symm) hp

/-! ## Characterizing the returned cursor -/

lemma zdb_bitsPre_iff (devs : List Nat) (c p : Nat) (hp : p < 64) :
    zdb devs (bitsPre c 64) p = true ↔
      c.testBit p = false ∧ ∃ d ∈ devs, agreeBelow d c p ∧ d.testBit p = true := by
  rw [zdb, bitsPre_take c 64 p (by omega), Bool.and_eq_true, List.any_eq_true]
  rw [bitsPre_getD c 64 p hp true]
  constructor
  · rintro ⟨h0, d, hd, hdb⟩
    obtain ⟨hdev, hmatch⟩ := (mem_part_iff devs (bitsPre c p) d).mp hd
    refine ⟨by simpa using h0, d, hdev, (matchFrom_bitsPre d c p).mp hmatch, hdb⟩
  · rintro ⟨h0, d, hdev, hag, hdb⟩
    refine ⟨by simp [h0], d, ?_, hdb⟩
    rw [mem_part_iff, matchFrom_bitsPre]
    exact ⟨hdev, hag⟩

lemma getLast?_mem_list (l : List Nat) (a : Nat) (h : l.getLast? = some a) : a ∈ l :=
  List.mem_of_mem_getLast? (by rw [h]; exact rfl)

lemma foldl_pick : ∀ (l : List Nat) (n0 : Int),
    List.foldl (fun (_ : Int) (p : Nat) => (p : Int)) n0 l =
      ((l.getLast?).map (fun p : Nat => (p : Int))).getD n0
  | [], _ => rfl
  | [_], _ => rfl
  | a :: b :: l, n0 => by
    rw [List.foldl_cons, foldl_pick (b :: l) (a : Int), List.getLast?_cons_cons]
    rcases hg : (b :: l).getLast? with _ | x
    · exact absurd (List.getLast?_eq_none_iff.mp hg) (by simp)
    · simp [hg]

lemma pairwise_le_getLast : ∀ (l : List Nat), l.Pairwise (· < ·) →
    ∀ q ∈ l, ∀ p, l.getLast? = some p → q ≤ p
  | [] => by
    intro _ q hq
    exact absurd hq (List.not_mem_nil q)
  | [a] => by
    intro _ q hq p hp
    simp at hq hp
    omega
  | a :: b :: l => by
    intro hpw q hq p hp
    rw [List.getLast?_cons_cons] at hp
    rcases List.mem_cons.mp hq with rfl | hq2
    · have hpmem : p ∈ b :: l := getLast?_mem_list _ _ hp
      have := (List.pairwise_cons.mp hpw).1 p hpmem
      omega
    · exact pairwise_le_getLast (b :: l) (List.pairwise_cons.mp hpw).2 q hq2 p hp

lemma nextOut_cases (devs : List Nat) (ch : List Bool) :
    (nextOut devs ch 0 64 64 = 64 ∧ ∀ p, p < 64 → zdb devs ch p = false) ∨
    (∃ p, p < 64 ∧ zdb devs ch p = true ∧ nextOut devs ch 0 64 64 = (p : Int) ∧
      ∀ q, q < 64 → zdb devs ch q = true → q ≤ p) := by
  have hpw : ((List.range' 0 64).filter (zdb devs ch)).Pairwise (· < ·) :=
    (List.pairwise_lt_range' 0 64 1 (by omega)).sublist (List.filter_sublist _)
  have hun : nextOut devs ch 0 64 64 =
      (((List.range' 0 64).filter (zdb devs ch)).getLast?.map
        (fun p : Nat => (p : Int))).getD 64 := by
    rw [nextOut]
    exact foldl_pick _ 64
  rcases hl2 : ((List.range' 0 64).filter (zdb devs ch)).getLast? with _ | p
  · left
    constructor
    · rw [hun, hl2]
      rfl
    · intro p hp
      have hnil := List.getLast?_eq_none_iff.mp hl2
      have : p ∉ (List.range' 0 64).filter (zdb devs ch) := by
        rw [hnil]
        exact List.not_mem_nil p
      rcases hz : zdb devs ch p with hf | ht
      · rfl
      · exact absurd (List.mem_filter_of_mem (by
          rw [List.mem_range'_1]
          omega) hz) this
  · right
    have hpmem := getLast?_mem_list _ _ hl2
    have hzp := List.of_mem_filter hpmem
    have hplt : p < 64 := by
      have := List.mem_of_mem_filter hpmem
      rw [List.mem_range'_1] at this
      omega
    refine ⟨p, hplt, hzp, by rw [hun, hl2]; rfl, ?_⟩
    intro q hq hzq
    exact pairwise_le_getLast _ hpw q
      (List.mem_filter_of_mem (by rw [List.mem_range'_1]; omega) hzq) p hl2

lemma nextSpec_eq_64_iff (devs : List Nat) (c : Nat) :
    nextSpec devs c = 64 ↔ ∀ d ∈ devs, ¬ lexLt c d := by
  constructor
  · rintro h d hd ⟨p, hp, hag, hc0, hd1⟩
    rcases nextOut_cases devs (bitsPre c 64) with ⟨-, hall⟩ | ⟨p2, hp2, -, heq, -⟩
    · have hzt : zdb devs (bitsPre c 64) p = true :=
        (zdb_bitsPre_iff devs c p hp).mpr
          ⟨hc0, d, hd, fun q hq => (hag q hq).symm, hd1⟩
      rw [hall p hp] at hzt
      exact Bool.noConfusion hzt
    · rw [nextSpec] at h
      rw [h] at heq
      omega
  · intro h
    rcases nextOut_cases devs (bitsPre c 64) with ⟨heq, -⟩ | ⟨p, hp, hz, -, -⟩
    · exact heq
    · obtain ⟨hc0, d, hdev, hag, hd1⟩ := (zdb_bitsPre_iff devs c p hp).mp hz
      exact absurd ⟨p, hp, fun q hq => (hag q hq).symm, hc0, hd1⟩ (h d hdev)

lemma nextSpec_pos (devs : List Nat) (c : Nat)
    (hne : ∃ d ∈ devs, lexLt c d) :
    ∃ p : Nat, p < 64 ∧ nextSpec devs c = (p : Int) ∧ c.testBit p = false ∧
      part devs (bitsPre c p ++ [true]) ≠ [] ∧
      (∀ q, q < 64 → zdb devs (bitsPre c 64) q = true → q ≤ p) := by
  rcases nextOut_cases devs (bitsPre c 64) with ⟨h64, -⟩ | ⟨p, hp, hz, heq, hmax⟩
  · obtain ⟨d, hd, hlex⟩ := hne
    exact absurd hlex ((nextSpec_eq_64_iff devs c).mp h64 d hd)
  · obtain ⟨hc0, d, hdev, hag, hd1⟩ := (zdb_bitsPre_iff devs c p hp).mp hz
    refine ⟨p, hp, heq, hc0, ?_, hmax⟩
    exact List.ne_nil_of_mem ((mem_S1_iff devs c p d).mpr ⟨hdev, hag, hd1⟩)

/-! ## The chained enumeration -/

lemma natToBytes_bytesToNat (c : Nat) (h : c < 2 ^ 64) :
    bytesToNat (natToBytes c) = c := by
  simp [natToBytes, bytesToNat]
  omega

lemma mem_above (devs : List Nat) (c d : Nat) :
    d ∈ above devs c ↔ d ∈ devs ∧ lexLt c d := by
  simp [above, List.mem_filter]

lemma above_cons_perm (devs : List Nat) (c cF : Nat) (hnodup : devs.Nodup)
    (hF : cF ∈ devs) (hcF : lexLt c cF)
    (hmin : ∀ d ∈ devs, lexLt c d → d = cF ∨ lexLt cF d) :
    (above devs c).Perm (cF :: above devs cF) := by
  refine (List.perm_ext_iff_of_nodup (hnodup.filter _) ?_).mpr ?_
  · refine List.nodup_cons.mpr ⟨?_, hnodup.filter _⟩
    intro hmem
    exact lexLt_irrefl cF ((mem_above devs cF cF).mp hmem).2
  · intro d
    show d ∈ above devs c ↔ d ∈ cF :: above devs cF
    rw [mem_above, List.mem_cons, mem_above]
    constructor
    · rintro ⟨hd, hlex⟩
      rcases hmin d hd hlex with h | h
      · exact Or.inl h
      · exact Or.inr ⟨hd, h⟩
    · rintro (rfl | ⟨hd, hlex⟩)
      · exact ⟨hF, hcF⟩
      · exact ⟨hd, lexLt_trans c cF d hcF hlex⟩

lemma devs_cons_perm (devs : List Nat) (cF : Nat) (hnodup : devs.Nodup)
    (hF : cF ∈ devs) (hmin : ∀ d ∈ devs, d = cF ∨ lexLt cF d) :
    devs.Perm (cF :: above devs cF) := by
  refine (List.perm_ext_iff_of_nodup hnodup ?_).mpr ?_
  · refine List.nodup_cons.mpr ⟨?_, hnodup.filter _⟩
    intro hmem
    exact lexLt_irrefl cF ((mem_above devs cF cF).mp hmem).2
  · intro d
    show d ∈ devs ↔ d ∈ cF :: above devs cF
    rw [List.mem_cons, mem_above]
    constructor
    · intro hd
      rcases hmin d hd with h | h
      · exact Or.inl h
      · exact Or.inr ⟨hd, h⟩
    · rintro (rfl | ⟨hd, _⟩)
      · exact hF
      · exact hd

/-- One step of the chained enumeration: from the code c just delivered and
the cursor the pass returned, the next search_rom call delivers the least
device above c, and the chain continues. -/
lemma chain_step (devs : List Nat) (hnodup : devs.Nodup)
    (h64 : ∀ d ∈ devs, d < 2 ^ 64) (c : Nat) (hc : c ∈ devs)
    (hab : above devs c ≠ []) :
    ∃ (cF : Nat) (p : Nat), p < 64 ∧ nextSpec devs c = (p : Int) ∧
      cF ∈ devs ∧ lexLt c cF ∧
      (above devs c).Perm (cF :: above devs cF) ∧
      (∀ s : SimState, ∃ crc2, search_rom (simLL devs) 0 1 (natToBytes c) (p : Int) s =
        some (nextSpec devs cF, natToBytes cF, ⟨.searching (bitsPre cF 64), crc2⟩)) := by
  have hdevne : devs ≠ [] := List.ne_nil_of_mem hc
  obtain ⟨d0, hd0⟩ := List.exists_mem_of_ne_nil _ hab
  obtain ⟨hd0dev, hd0lex⟩ := (mem_above devs c d0).mp hd0
  obtain ⟨p, hp64, hnsp, hc0, hS1, hmax⟩ := nextSpec_pos devs c ⟨d0, hd0dev, hd0lex⟩
  obtain ⟨ch2, lf, hpass, hlen, hmem, hagree, hbitL, hminS1⟩ :=
    pass_sound_next devs c p hp64 h64 hS1
  set cF := segVal ch2 with hcF
  have hlexcF : lexLt c cF := ⟨p, hp64, fun q hq => (hagree q hq).symm, hc0, hbitL⟩
  have hminAll : ∀ d ∈ devs, lexLt c d → d = cF ∨ lexLt cF d := by
    rintro d hd ⟨q, hq64, hagq, hcq0, hdq1⟩
    have hz : zdb devs (bitsPre c 64) q = true :=
      (zdb_bitsPre_iff devs c q hq64).mpr
        ⟨hcq0, d, hd, fun r hr => (hagq r hr).symm, hdq1⟩
    have hqp : q ≤ p := hmax q hq64 hz
    rcases Nat.eq_or_lt_of_le hqp with hqe | hql
    · subst hqe
      exact hminS1 d hd (fun r hr => (hagq r hr).symm) hdq1
    · refine Or.inr ⟨q, hq64, ?_, ?_, hdq1⟩
      · intro r hr
        rw [hagree r (by omega), ← hagq r hr]
      · rw [hagree q hql, hcq0]
  refine ⟨cF, p, hp64, hnsp, hmem, hlexcF,
    above_cons_perm devs c cF hnodup hmem hlexcF hminAll, ?_⟩
  intro s
  obtain ⟨crc2, heq⟩ := search_rom_sim devs hdevne c (natToBytes c) (p : Int) s
    (ch2, lf, nextSpec devs cF) (natToBytes_length c)
    (fun t ht => natToBytes_getD c t ht) hpass
  refine ⟨crc2, ?_⟩
  rw [heq, pathBytes_eq_natToBytes ch2 hlen, bitsPre_segVal ch2 hlen]

lemma enum_cont (devs : List Nat) (hnodup : devs.Nodup)
    (h64 : ∀ d ∈ devs, d < 2 ^ 64) :
    ∀ (n : Nat) (c : Nat), c ∈ devs → (above devs c).length = n → 1 ≤ n →
    ∃ codes : List (List Nat),
      (∀ s : SimState, ∃ sF, enumChain (simLL devs) n (natToBytes c)
        (nextSpec devs c) s = some (codes, 64, sF)) ∧
      (codes.map bytesToNat).Perm (above devs c) := by
  intro n
  induction n with
  | zero => intro c _ _ h1; omega
  | succ n ih =>
    intro c hc hlen _
    have hab : above devs c ≠ [] := by
      intro hnil
      rw [hnil] at hlen
      simp at hlen
    obtain ⟨cF, p, hp64, hnsp, hmemF, hlexF, hperm, hcall⟩ :=
      chain_step devs hnodup h64 c hc hab
    have hlenF : (above devs cF).length = n := by
      have h2 := hperm.length_eq
      rw [hlen] at h2
      simp at h2
      omega
    rcases Nat.eq_zero_or_pos n with hn0 | hn1
    · -- the device just found is the last one
      subst hn0
      have habF : above devs cF = [] := List.length_eq_zero.mp hlenF
      have hnsF : nextSpec devs cF = 64 := by
        rw [nextSpec_eq_64_iff]
        intro d hd hlex
        have : d ∈ above devs cF := (mem_above devs cF d).mpr ⟨hd, hlex⟩
        rw [habF] at this
        exact absurd this (List.not_mem_nil d)
      refine ⟨[natToBytes cF], ?_, ?_⟩
      · intro s
        obtain ⟨crc2, heq⟩ := hcall s
        refine ⟨⟨.searching (bitsPre cF 64), crc2⟩, ?_⟩
        rw [enumChain, hnsp, heq, hnsF]
        simp
      · rw [List.map_singleton, natToBytes_bytesToNat cF (h64 cF hmemF)]
        have : (above devs c).Perm [cF] := by
          rw [← habF]
          exact hperm
        exact this.symm
    · -- more devices remain
      have habF : above devs cF ≠ [] := by
        intro hnil
        rw [hnil] at hlenF
        simp at hlenF
        omega
      obtain ⟨codes2, hrun2, hperm2⟩ := ih cF hmemF hlenF hn1
      obtain ⟨d1, hd1⟩ := List.exists_mem_of_ne_nil _ habF
      obtain ⟨hd1dev, hd1lex⟩ := (mem_above devs cF d1).mp hd1
      obtain ⟨p2, hp264, hnsp2, -, -, -⟩ := nextSpec_pos devs cF ⟨d1, hd1dev, hd1lex⟩
      refine ⟨natToBytes cF :: codes2, ?_, ?_⟩
      · intro s
        obtain ⟨crc2, heq⟩ := hcall s
        obtain ⟨sF, heq2⟩ := hrun2 ⟨.searching (bitsPre cF 64), crc2⟩
        refine ⟨sF, ?_⟩
        have hne64 : ¬(nextSpec devs cF = 64) := by rw [hnsp2]; omega
        have hnem1 : ¬(nextSpec devs cF = -1) := by rw [hnsp2]; omega
        rw [enumChain, hnsp, heq]
        dsimp only
        rw [if_neg hne64, if_neg hnem1, heq2]
      · rw [List.map_cons, natToBytes_bytesToNat cF (h64 cF hmemF)]
        exact (hperm2.cons cF).trans hperm.symm

lemma bytes_getD_cByte (buf : List Nat) (hlen : buf.length = 8)
    (hb : ∀ t, t < 8 → buf.getD t 0 < 256) :
    ∀ t, t < 8 → buf.getD t 0 = cByte (bytesToNat buf) t := by
  rcases buf with _ | ⟨b0, _ | ⟨b1, _ | ⟨b2, _ | ⟨b3, _ | ⟨b4, _ | ⟨b5, _ | ⟨b6, _ | ⟨b7, _ | ⟨b8, tl⟩⟩⟩⟩⟩⟩⟩⟩⟩ <;> simp at hlen
  have hb0 : b0 < 256 := by simpa using hb 0 (by omega)
  have hb1 : b1 < 256 := by simpa using hb 1 (by omega)
  have hb2 : b2 < 256 := by simpa using hb 2 (by omega)
  have hb3 : b3 < 256 := by simpa using hb 3 (by omega)
  have hb4 : b4 < 256 := by simpa using hb 4 (by omega)
  have hb5 : b5 < 256 := by simpa using hb 5 (by omega)
  have hb6 : b6 < 256 := by simpa using hb 6 (by omega)
  have hb7 : b7 < 256 := by simpa using hb 7 (by omega)
  intro t ht
  interval_cases t <;> (simp [bytesToNat, cByte]; try norm_num) <;> omega

/-- A pass started from cursor FIRST never consults the code buffer. -/
lemma passFrom_neg_one (devs : List Nat) (c c2 : Nat) :
    ∀ (k : Nat) (chosen : List Bool) (next : Int),
    passFrom devs c chosen k (-1) next = passFrom devs c2 chosen k (-1) next := by
  intro k
  induction k with
  | zero => intro chosen next; rw [passFrom, passFrom]
  | succ k ih =>
    intro chosen next
    simp only [passFrom]
    split_ifs <;> first | rfl | apply ih | omega

/-- The first search_rom call of a chained enumeration: whatever the buffer
holds and whatever state the bus is in, it finds the least device. -/
lemma first_call (devs : List Nat) (hne : devs ≠ [])
    (h64 : ∀ d ∈ devs, d < 2 ^ 64) :
    ∃ c1 : Nat, c1 ∈ devs ∧ (∀ d ∈ devs, d = c1 ∨ lexLt c1 d) ∧
      ∀ (buf : List Nat) (s : SimState), buf.length = 8 →
        (∀ t, t < 8 → buf.getD t 0 < 256) →
        ∃ crc2, search_rom (simLL devs) 0 1 buf (-1) s =
          some (nextSpec devs c1, natToBytes c1, ⟨.searching (bitsPre c1 64), crc2⟩) := by
  obtain ⟨ch2, lf, hpass0, hlen2, hc1mem, hmin1⟩ := pass_sound_first devs 0 hne h64
  refine ⟨segVal ch2, hc1mem, hmin1, ?_⟩
  intro buf s hblen hb
  have hpass : passFrom devs (bytesToNat buf) [] 64 (-1) 64 =
      some (ch2, lf, nextSpec devs (segVal ch2)) := by
    rw [passFrom_neg_one devs (bytesToNat buf) 0]
    exact hpass0
  obtain ⟨crc2, heq⟩ := search_rom_sim devs hne (bytesToNat buf) buf (-1) s
    (ch2, lf, nextSpec devs (segVal ch2)) hblen (bytes_getD_cByte buf hblen hb) hpass
  dsimp only at heq
  refine ⟨crc2, ?_⟩
  rw [heq, pathBytes_eq_natToBytes ch2 hlen2, bitsPre_segVal ch2 hlen2]

/-- The complete chained enumeration from FIRST: its code sequence depends
only on the device list, every call succeeds, the final call returns LAST,
and the codes are exactly the devices, each exactly once. -/
lemma enum_full (devs : List Nat) (hnodup : devs.Nodup) (hne : devs ≠ [])
    (h64 : ∀ d ∈ devs, d < 2 ^ 64) :
    ∃ codes : List (List Nat),
      (∀ (buf : List Nat) (s : SimState), buf.length = 8 →
        (∀ t, t < 8 → buf.getD t 0 < 256) →
        ∃ sF, enumChain (simLL devs) devs.length buf (-1) s = some (codes, 64, sF)) ∧
      (codes.map bytesToNat).Perm devs := by
  obtain ⟨c1, hc1mem, hmin1, hcall1⟩ := first_call devs hne h64
  have hperm1 : devs.Perm (c1 :: above devs c1) :=
    devs_cons_perm devs c1 hnodup hc1mem hmin1
  have hlen1 : devs.length = (above devs c1).length + 1 := by
    have := hperm1.length_eq
    simpa using this
  rcases Nat.eq_zero_or_pos (above devs c1).length with hab0 | hab1
  · -- a single device
    have habnil : above devs c1 = [] := List.eq_nil_of_length_eq_zero hab0
    have hns64 : nextSpec devs c1 = 64 := by
      rw [nextSpec_eq_64_iff]
      intro d hd hlex
      have : d ∈ above devs c1 := (mem_above devs c1 d).mpr ⟨hd, hlex⟩
      rw [habnil] at this
      exact absurd this (List.not_mem_nil d)
    refine ⟨[natToBytes c1], ?_, ?_⟩
    · intro buf s hblen hb
      obtain ⟨crc2, heq⟩ := hcall1 buf s hblen hb
      refine ⟨⟨.searching (bitsPre c1 64), crc2⟩, ?_⟩
      rw [hlen1, hab0, enumChain, heq, hns64]
      simp
    · rw [List.map_singleton, natToBytes_bytesToNat c1 (h64 c1 hc1mem)]
      have : devs.Perm [c1] := by
        rw [← habnil]
        exact hperm1
      exact this.symm
  · -- at least two devices
    obtain ⟨codes2, hrun2, hperm2⟩ :=
      enum_cont devs hnodup h64 (above devs c1).length c1 hc1mem rfl hab1
    have habne : above devs c1 ≠ [] := by
      intro hnil
      rw [hnil] at hab1
      simp at hab1
    obtain ⟨d1, hd1⟩ := List.exists_mem_of_ne_nil (above devs c1) habne
    obtain ⟨hd1dev, hd1lex⟩ := (mem_above devs c1 d1).mp hd1
    obtain ⟨p2, hp264, hnsp2, -, -, -⟩ := nextSpec_pos devs c1 ⟨d1, hd1dev, hd1lex⟩
    refine ⟨natToBytes c1 :: codes2, ?_, ?_⟩
    · intro buf s hblen hb
      obtain ⟨crc2, heq⟩ := hcall1 buf s hblen hb
      obtain ⟨sF, heq2⟩ := hrun2 ⟨.searching (bitsPre c1 64), crc2⟩
      refine ⟨sF, ?_⟩
      have hne64 : ¬(nextSpec devs c1 = 64) := by rw [hnsp2]; omega
      have hnem1 : ¬(nextSpec devs c1 = -1) := by rw [hnsp2]; omega
      rw [hlen1, enumChain, heq]
      dsimp only
      rw [if_neg hne64, if_neg hnem1, heq2]
    · rw [List.map_cons, natToBytes_bytesToNat c1 (h64 c1 hc1mem)]
      exact (hperm2.cons c1).trans hperm1.symm

/-! ## The READ_ROM path of the simulated bus -/

lemma simLL_readb_reading (devs : List Nat) (i crc : Nat) :
    (simLL devs).readb 8 ⟨.reading i, crc⟩ =
      (byteAnd devs i, ⟨.reading (i+1), crcUpd crc (byteAnd devs i) 8⟩) := by
  simp [simLL]

lemma simLL_cmd_read (devs : List Nat) (crc : Nat) :
    (simLL devs).writeb 0x33 8 ⟨.awaitCmd, crc⟩ = ⟨.reading 0, crc⟩ := by
  simp [simLL]

lemma read_bytes_reading (devs : List Nat) : ∀ (n i crc : Nat),
    ∃ crc2, read_bytes (simLL devs) n ⟨.reading i, crc⟩ =
      ((List.range' i n).map (byteAnd devs), ⟨.reading (i+n), crc2⟩) := by
  intro n
  induction n with
  | zero =>
    intro i crc
    exact ⟨crc, by simp [read_bytes]⟩
  | succ n ih =>
    intro i crc
    obtain ⟨crc2, heq⟩ := ih (i+1) (crcUpd crc (byteAnd devs i) 8)
    refine ⟨crc2, ?_⟩
    rw [read_bytes, simLL_readb_reading]
    dsimp only
    rw [heq, List.range'_succ]
    have e : i + 1 + n = i + (n + 1) := by omega
    simp [e]

/-- read_rom on the simulated bus returns the wired AND of the device
codes, byte by byte. -/
lemma read_rom_sim (devs : List Nat) (hne : devs ≠ []) (buf : List Nat)
    (s : SimState) :
    ∃ (ok : Bool) (sR : SimState),
      read_rom (simLL devs) buf s = (ok, (List.range' 0 8).map (byteAnd devs), sR) := by
  obtain ⟨crc2, heq⟩ := read_bytes_reading devs 8 0 0
  refine ⟨crc2 == 0, ⟨.reading 8, crc2⟩, ?_⟩
  rw [read_rom, simLL_reset devs hne s]
  dsimp only
  rw [simLL_cmd_read, read_block]
  dsimp only
  have hset : (simLL devs).setCrc 0 ⟨.reading 0, s.crc⟩ = ⟨.reading 0, 0⟩ := by
    simp [simLL]
  rw [hset, heq]
  simp [simLL]

set_option maxRecDepth 4000 in
lemma land255 : ∀ x, x < 256 → Nat.land x 255 = x := by decide

lemma byteAnd_single (d i : Nat) : byteAnd [d] i = cByte d i := by
  have h : (d >>> (8*i)) % 256 < 256 := Nat.mod_lt _ (by omega)
  rw [byteAnd]
  simp only [List.foldr_cons, List.foldr_nil]
  rw [land255 _ h, Nat.shiftRight_eq_div_pow, cByte]

lemma natToBytes_map (d : Nat) : (List.range' 0 8).map (byteAnd [d]) = natToBytes d := by
  have h8 : List.range' 0 8 = [0, 1, 2, 3, 4, 5, 6, 7] := rfl
  rw [h8]
  simp [byteAnd_single, cByte, natToBytes]

/-! ## The claims about the search and the enumeration -/

/-- C1: on a simulated bus carrying any nonempty set of distinct 64-bit ROM
codes, the chained sequence of search_rom calls starting from cursor FIRST,
feeding each returned cursor back as last, succeeds, produces exactly one
code per device with no repetition (the produced codes are a permutation of
the device set), and the final call returns LAST. -/
theorem claim_C1 (devs : List Nat) (hnodup : devs.Nodup) (hne : devs ≠ [])
    (h64 : ∀ d ∈ devs, d < 2 ^ 64)
    (buf : List Nat) (s : SimState) (hblen : buf.length = 8)
    (hb : ∀ t, t < 8 → buf.getD t 0 < 256) :
    ∃ (codes : List (List Nat)) (sF : SimState),
      enumChain (simLL devs) devs.length buf FIRST s = some (codes, LAST, sF) ∧
      codes.length = devs.length ∧ codes.Nodup ∧
      (codes.map bytesToNat).Perm devs := by
  have hF : FIRST = (-1 : Int) := rfl
  have hL : LAST = (64 : Int) := by decide
  obtain ⟨codes, hrun, hperm⟩ := enum_full devs hnodup hne h64
  obtain ⟨sF, heq⟩ := hrun buf s hblen hb
  refine ⟨codes, sF, ?_, ?_, ?_, hperm⟩
  · rw [hF, hL, heq]
  · have := hperm.length_eq
    simpa using this
  · exact List.Nodup.of_map bytesToNat (hperm.nodup_iff.mpr hnodup)

theorem claim_C1_witness :
    ([0, 2, 3] : List Nat).Nodup ∧ ([0, 2, 3] : List Nat) ≠ [] ∧
    (∀ d ∈ ([0, 2, 3] : List Nat), d < 2 ^ 64) ∧
    ([0, 0, 0, 0, 0, 0, 0, 0] : List Nat).length = 8 ∧
    (∀ t, t < 8 → ([0, 0, 0, 0, 0, 0, 0, 0] : List Nat).getD t 0 < 256) ∧
    ∃ (codes : List (List Nat)) (sF : SimState),
      enumChain (simLL [0, 2, 3]) ([0, 2, 3] : List Nat).length
        [0, 0, 0, 0, 0, 0, 0, 0] FIRST ⟨.idle, 0⟩ = some (codes, LAST, sF) ∧
      codes.length = ([0, 2, 3] : List Nat).length ∧ codes.Nodup ∧
      (codes.map bytesToNat).Perm [0, 2, 3] :=
  ⟨by decide, by decide, by decide, by decide, by decide,
   claim_C1 [0, 2, 3] (by decide) (by decide) (by decide)
     [0, 0, 0, 0, 0, 0, 0, 0] ⟨.idle, 0⟩ (by decide) (by decide)⟩

/-- C9: determinism of the enumeration — for a fixed device set, two
complete chained enumerations from FIRST, started from arbitrary (possibly
different) buffer contents and bus states, return the same ordered code
sequence, both ending at LAST. -/
theorem claim_C9 (devs : List Nat) (hnodup : devs.Nodup) (hne : devs ≠ [])
    (h64 : ∀ d ∈ devs, d < 2 ^ 64)
    (buf1 buf2 : List Nat) (s1 s2 : SimState)
    (hb1len : buf1.length = 8) (hb1 : ∀ t, t < 8 → buf1.getD t 0 < 256)
    (hb2len : buf2.length = 8) (hb2 : ∀ t, t < 8 → buf2.getD t 0 < 256) :
    ∃ (codes : List (List Nat)) (sF1 sF2 : SimState),
      enumChain (simLL devs) devs.length buf1 FIRST s1 = some (codes, LAST, sF1) ∧
      enumChain (simLL devs) devs.length buf2 FIRST s2 = some (codes, LAST, sF2) := by
  have hF : FIRST = (-1 : Int) := rfl
  have hL : LAST = (64 : Int) := by decide
  obtain ⟨codes, hrun, -⟩ := enum_full devs hnodup hne h64
  obtain ⟨sF1, heq1⟩ := hrun buf1 s1 hb1len hb1
  obtain ⟨sF2, heq2⟩ := hrun buf2 s2 hb2len hb2
  refine ⟨codes, sF1, sF2, ?_, ?_⟩
  · rw [hF, hL, heq1]
  · rw [hF, hL, heq2]

theorem claim_C9_witness :
    ([0, 2, 3] : List Nat).Nodup ∧ ([0, 2, 3] : List Nat) ≠ [] ∧
    (∀ d ∈ ([0, 2, 3] : List Nat), d < 2 ^ 64) ∧
    ([0, 0, 0, 0, 0, 0, 0, 0] : List Nat).length = 8 ∧
    (∀ t, t < 8 → ([0, 0, 0, 0, 0, 0, 0, 0] : List Nat).getD t 0 < 256) ∧
    ([255, 255, 255, 255, 255, 255, 255, 255] : List Nat).length = 8 ∧
    (∀ t, t < 8 → ([255, 255, 255, 255, 255, 255, 255, 255] : List Nat).getD t 0 < 256) ∧
    ∃ (codes : List (List Nat)) (sF1 sF2 : SimState),
      enumChain (simLL [0, 2, 3]) ([0, 2, 3] : List Nat).length
        [0, 0, 0, 0, 0, 0, 0, 0] FIRST ⟨.idle, 0⟩ = some (codes, LAST, sF1) ∧
      enumChain (simLL [0, 2, 3]) ([0, 2, 3] : List Nat).length
        [255, 255, 255, 255, 255, 255, 255, 255] FIRST ⟨.reading 5, 7⟩ =
        some (codes, LAST, sF2) :=
  ⟨by decide, by decide, by decide, by decide, by decide, by decide, by decide,
   claim_C9 [0, 2, 3] (by decide) (by decide) (by decide)
     [0, 0, 0, 0, 0, 0, 0, 0] [255, 255, 255, 255, 255, 255, 255, 255]
     ⟨.idle, 0⟩ ⟨.reading 5, 7⟩ (by decide) (by decide) (by decide) (by decide)⟩

/-- C2 (amended): for every non-faulting pass of the search routine on the
simulated bus — the first pass of an enumeration (last = FIRST) or any
continuation pass from a genuine unresolved discrepancy cursor — the
returned position equals the deepest (numerically largest) still-unresolved
discrepancy position along the produced path at which the 0-branch was
taken, or LAST (64) when no unresolved discrepancy remains. -/
theorem claim_C2 (devs : List Nat) (c : Nat) (code : List Nat) (crc : Nat)
    (last : Int) (hne : devs ≠ []) (h64 : ∀ d ∈ devs, d < 2 ^ 64)
    (hlen : code.length = 8) (hcode : ∀ t, t < 8 → code.getD t 0 = cByte c t)
    (hlast : last = -1 ∨
      ∃ L : Nat, last = (L : Int) ∧ L < 64 ∧ part devs (bitsPre c L ++ [true]) ≠ []) :
    ∃ (ch2 : List Bool) (crc2 : Nat),
      search (simLL devs) code last ⟨.searching [], crc⟩ =
        (nextOut devs ch2 0 64 64, pathBytes ch2, ⟨.searching ch2, crc2⟩) ∧
      ch2.length = 64 ∧
      ((nextOut devs ch2 0 64 64 = 64 ∧ ∀ p, p < 64 → zdb devs ch2 p = false) ∨
       (∃ p, p < 64 ∧ zdb devs ch2 p = true ∧ nextOut devs ch2 0 64 64 = (p : Int) ∧
         ∀ q, q < 64 → zdb devs ch2 q = true → q ≤ p)) := by
  rcases hlast with rfl | ⟨L, rfl, hL, hS1⟩
  · obtain ⟨ch2, lf, hpass, hlen2, -, -⟩ := pass_sound_first devs c hne h64
    obtain ⟨⟨crc2, heq⟩, -⟩ := search_sim devs c code (-1) crc
      (ch2, lf, nextSpec devs (segVal ch2)) hlen hcode hpass
    dsimp only at heq
    have hns : nextSpec devs (segVal ch2) = nextOut devs ch2 0 64 64 := by
      rw [nextSpec, bitsPre_segVal ch2 hlen2]
    refine ⟨ch2, crc2, ?_, hlen2, nextOut_cases devs ch2⟩
    rw [heq, hns]
  · obtain ⟨ch2, lf, hpass, hlen2, -, -, -, -⟩ := pass_sound_next devs c L hL h64 hS1
    obtain ⟨⟨crc2, heq⟩, -⟩ := search_sim devs c code (L : Int) crc
      (ch2, lf, nextSpec devs (segVal ch2)) hlen hcode hpass
    dsimp only at heq
    have hns : nextSpec devs (segVal ch2) = nextOut devs ch2 0 64 64 := by
      rw [nextSpec, bitsPre_segVal ch2 hlen2]
    refine ⟨ch2, crc2, ?_, hlen2, nextOut_cases devs ch2⟩
    rw [heq, hns]

theorem claim_C2_witness :
    ([0, 2, 3] : List Nat) ≠ [] ∧ (∀ d ∈ ([0, 2, 3] : List Nat), d < 2 ^ 64) ∧
    ([0, 0, 0, 0, 0, 0, 0, 0] : List Nat).length = 8 ∧
    (∀ t, t < 8 → ([0, 0, 0, 0, 0, 0, 0, 0] : List Nat).getD t 0 = cByte 0 t) ∧
    ∃ (ch2 : List Bool) (crc2 : Nat),
      search (simLL [0, 2, 3]) [0, 0, 0, 0, 0, 0, 0, 0] (-1) ⟨.searching [], 0⟩ =
        (nextOut [0, 2, 3] ch2 0 64 64, pathBytes ch2, ⟨.searching ch2, crc2⟩) ∧
      ch2.length = 64 ∧
      ((nextOut [0, 2, 3] ch2 0 64 64 = 64 ∧ ∀ p, p < 64 → zdb [0, 2, 3] ch2 p = false) ∨
       (∃ p, p < 64 ∧ zdb [0, 2, 3] ch2 p = true ∧
         nextOut [0, 2, 3] ch2 0 64 64 = (p : Int) ∧
         ∀ q, q < 64 → zdb [0, 2, 3] ch2 q = true → q ≤ p)) :=
  ⟨by decide, by decide, by decide, by decide,
   claim_C2 [0, 2, 3] 0 [0, 0, 0, 0, 0, 0, 0, 0] 0 (-1) (by decide) (by decide)
     (by decide) (by decide) (Or.inl rfl)⟩

/-- C7: with exactly one device on the simulated bus, read_rom (reset,
READ_ROM command, 8 byte reads with CRC validation) leaves in the caller's
buffer exactly the 8-byte code that a single successful search pass started
from FIRST produces: both equal the byte rendering of the device's 64-bit
code. -/
theorem claim_C7 (d : Nat) (hd : d < 2 ^ 64)
    (buf1 buf2 : List Nat) (s1 s2 : SimState)
    (hlen2 : buf2.length = 8) (hb2 : ∀ t, t < 8 → buf2.getD t 0 < 256) :
    ∃ (ok : Bool) (sR : SimState) (last : Int) (sS : SimState),
      read_rom (simLL [d]) buf1 s1 = (ok, natToBytes d, sR) ∧
      search_rom (simLL [d]) 0 1 buf2 FIRST s2 = some (last, natToBytes d, sS) := by
  obtain ⟨ok, sR, hread⟩ := read_rom_sim [d] (by simp) buf1 s1
  rw [natToBytes_map] at hread
  obtain ⟨c1, hc1mem, -, hcall⟩ := first_call [d] (by simp) (by simpa using hd)
  have hc1 : c1 = d := by simpa using hc1mem
  subst hc1
  obtain ⟨crc2, hsearch⟩ := hcall buf2 s2 hlen2 hb2
  refine ⟨ok, sR, nextSpec [c1] c1, ⟨.searching (bitsPre c1 64), crc2⟩, hread, ?_⟩
  rw [show FIRST = (-1 : Int) from rfl]
  exact hsearch

theorem claim_C7_witness :
    (5 : Nat) < 2 ^ 64 ∧ ([0, 0, 0, 0, 0, 0, 0, 0] : List Nat).length = 8 ∧
    (∀ t, t < 8 → ([0, 0, 0, 0, 0, 0, 0, 0] : List Nat).getD t 0 < 256) ∧
    ∃ (ok : Bool) (sR : SimState) (last : Int) (sS : SimState),
      read_rom (simLL [5]) [1, 2, 3] ⟨.idle, 0⟩ = (ok, natToBytes 5, sR) ∧
      search_rom (simLL [5]) 0 1 [0, 0, 0, 0, 0, 0, 0, 0] FIRST ⟨.idle, 0⟩ =
        some (last, natToBytes 5, sS) :=
  ⟨by decide, by decide, by decide,
   claim_C7 5 (by decide) [1, 2, 3] [0, 0, 0, 0, 0, 0, 0, 0] ⟨.idle, 0⟩ ⟨.idle, 0⟩
     (by decide) (by decide)⟩

end OneWire
